import Mathlib

/-!
Verification of the request admission, sequencing and credential-rotation
subsystem of the vercel-locket repository, shallowly embedded in Lean 4.

The embedding covers:
* the stats tracker fallback path of `RedisStatsTracker`
  (`src/redis_store.py`: `add_success`, `add_error`, `get_recent`);
* the rate-limit telemetry update (`src/api.py`: `_update_rate_limit`);
* the token store administration (`src/redis_store.py`: `delete_token`);
* the credential rotation pool (`get_next_token` / `ban_token`, called from
  `src/api.py` but defined outside the provided sources, modelled from the
  spec) together with the worker pipeline `_process_request`
  (`src/queue_manager.py`) and `restorePurchase` (`src/api.py`);
* the queue manager itself (`src/queue_manager.py`), embedded as a state
  machine whose atomic steps are the lock-protected regions of the source:
  `add_to_queue`, the two halves of the worker loop body (`_process_queue`),
  `_cleanup_old_requests`, and `get_status` (which reloads the persisted
  snapshot when the id is unknown).  Persistence (`_save_state` /
  `_load_state`) is modelled by a `file` component of the state holding the
  serialized `client_requests` table; a save is performed in the same atomic
  step as the transition it follows, matching the synchronous
  write-after-transition discipline of the source.  `datetime.now()` is
  modelled by a logical clock: each step receives the current time and the
  step relation requires it to be no earlier than the last observed time.
-/

namespace Locket

/-! ## Stats tracker (`RedisStatsTracker`, in-memory fallback path) -/

/-- One entry of the recent-activity feed, as built by `add_success` /
`add_error` in `src/redis_store.py` (error entries store the message in the
`product_id` slot). -/
structure ActEntry where
  username : String
  product_id : String
  used_token : String
  status : String
  timestamp : Nat
  deriving DecidableEq, Repr

/-- The in-memory state of `RedisStatsTracker`: `_mem_stats` (totals and the
per-day success buckets) plus `_mem_activity`. -/
structure StatsState where
  total_unlocks : Nat
  total_errors : Nat
  daily_unlocks : List (String × Nat)
  activity : List ActEntry
  deriving DecidableEq, Repr

/-- `self._mem_stats["daily_unlocks"][today] = ...get(today, 0) + 1`. -/
def bumpDaily (d : List (String × Nat)) (day : String) : List (String × Nat) :=
  if d.any (fun e => e.1 == day) then
    d.map (fun e => if e.1 == day then (e.1, e.2 + 1) else e)
  else d ++ [(day, 1)]

/-- Read one daily bucket (`.get(day)`). -/
def lookupDaily (d : List (String × Nat)) (day : String) : Option Nat :=
  (d.find? (fun e => e.1 == day)).map Prod.snd

/-- `RedisStatsTracker.add_success` (in-memory path): bump the total, bump the
day bucket of `today` (computed by the source from the fixed UTC+7 clock and
passed here as a parameter), prepend an activity entry, cap at 20. -/
def add_success (s : StatsState) (today : String) (ts : Nat)
    (username product_id used_token : String) : StatsState :=
  { s with
    total_unlocks := s.total_unlocks + 1
    daily_unlocks := bumpDaily s.daily_unlocks today
    activity := (⟨username, product_id, used_token, "success", ts⟩ :: s.activity).take 20 }

/-- `RedisStatsTracker.add_error` (in-memory path): bump the error total and
prepend a capped activity entry carrying the message in the `product_id`
slot.  (The source touches no daily bucket here; `today` is accepted for
interface parity with `add_success` and ignored, as in the source.) -/
def add_error (s : StatsState) (_today : String) (ts : Nat)
    (username error_msg used_token : String) : StatsState :=
  { s with
    total_errors := s.total_errors + 1
    activity := (⟨username, error_msg, used_token, "error", ts⟩ :: s.activity).take 20 }

/-- `RedisStatsTracker.get_recent` (in-memory path): `self._mem_activity[:limit]`. -/
def get_recent (s : StatsState) (limit : Nat) : List ActEntry :=
  s.activity.take limit

/-- A recording event of the tracker. -/
inductive StatsEv where
  | succ (today : String) (ts : Nat) (username product_id used_token : String)
  | err (today : String) (ts : Nat) (username error_msg used_token : String)
  deriving DecidableEq, Repr

def applyEv (s : StatsState) : StatsEv → StatsState
  | .succ d t u p k => add_success s d t u p k
  | .err d t u m k => add_error s d t u m k

def applyEvs (s : StatsState) (evs : List StatsEv) : StatsState :=
  evs.foldl applyEv s

/-- The activity entry a recording event produces. -/
def evEntry : StatsEv → ActEntry
  | .succ _ t u p k => ⟨u, p, k, "success", t⟩
  | .err _ t u m k => ⟨u, m, k, "error", t⟩

def emptyStats : StatsState := ⟨0, 0, [], []⟩

lemma take_append_take (l m : List α) (n : Nat) :
    (l ++ m.take n).take n = (l ++ m).take n := by
  rw [List.take_append_eq_append_take, List.take_append_eq_append_take,
    List.take_take, Nat.min_eq_left (Nat.sub_le n l.length)]

lemma applyEv_activity (s : StatsState) (e : StatsEv) :
    (applyEv s e).activity = (evEntry e :: s.activity).take 20 := by
  cases e <;> rfl

lemma applyEvs_activity (evs : List StatsEv) (s : StatsState)
    (hs : s.activity.length ≤ 20) :
    (applyEvs s evs).activity = ((evs.map evEntry).reverse ++ s.activity).take 20 := by
  induction evs generalizing s with
  | nil =>
    simp [applyEvs, List.take_of_length_le hs]
  | cons e es ih =>
    have h1 : applyEvs s (e :: es) = applyEvs (applyEv s e) es := rfl
    have h2 : (applyEv s e).activity.length ≤ 20 := by
      rw [applyEv_activity]; exact List.length_take_le _ _
    rw [h1, ih _ h2, applyEv_activity, take_append_take]
    simp [List.append_assoc]

lemma find?_fst_map_bump (d : List (String × Nat)) (day : String) :
    (d.map (fun e => if e.1 == day then (e.1, e.2 + 1) else e)).find?
        (fun e => e.1 == day)
      = (d.find? (fun e => e.1 == day)).map
          (fun e => if e.1 == day then (e.1, e.2 + 1) else e) := by
  rw [List.find?_map]
  have hcomp : ((fun (e : String × Nat) => e.1 == day) ∘
      fun e => if e.1 == day then (e.1, e.2 + 1) else e)
      = (fun (e : String × Nat) => e.1 == day) := by
    funext e
    by_cases h : e.1 == day <;> simp [h, Function.comp]
  rw [hcomp]

lemma lookupDaily_bumpDaily (d : List (String × Nat)) (day : String) :
    lookupDaily (bumpDaily d day) day = some ((lookupDaily d day).getD 0 + 1) := by
  by_cases h : d.any (fun e => e.1 == day)
  · have ⟨e0, he0, hp⟩ := List.any_eq_true.mp h
    have hfind : d.find? (fun e => e.1 == day) |>.isSome := by
      rw [List.find?_isSome]; exact ⟨e0, he0, hp⟩
    obtain ⟨e1, he1⟩ := Option.isSome_iff_exists.mp hfind
    have hp1 := List.find?_some he1
    simp only [bumpDaily, h, if_true, lookupDaily, find?_fst_map_bump, he1,
      Option.map_map, Option.map_some', Function.comp, hp1, if_true, Option.getD_some]
  · have hnone : d.find? (fun e => e.1 == day) = none := by
      rw [List.find?_eq_none]
      intro x hx hcon
      exact h (List.any_eq_true.mpr ⟨x, hx, hcon⟩)
    simp [bumpDaily, h, lookupDaily, List.find?_append, hnone]

lemma take_reverse_eq (l : List α) (n : Nat) :
    l.reverse.take n = (l.drop (l.length - n)).reverse := by
  have h := List.rtake_eq_reverse_take_reverse l n
  rw [List.rtake] at h
  rw [h, List.reverse_reverse]

/-- C7 counterexample: `add_error` does not touch any daily bucket.  Starting
from the empty tracker, one `add_error` call leaves `daily_unlocks` empty
(the current date's bucket is absent), while it does bump the error total and
prepend one activity entry. -/
theorem add_error_skips_daily :
    (add_error emptyStats "2026-10-12" 5 "alice" "boom" "K1").total_errors = 1 ∧
    (add_error emptyStats "2026-10-12" 5 "alice" "boom" "K1").daily_unlocks = [] ∧
    lookupDaily (add_error emptyStats "2026-10-12" 5 "alice" "boom" "K1").daily_unlocks
        "2026-10-12" = none ∧
    (add_error emptyStats "2026-10-12" 5 "alice" "boom" "K1").activity.length = 1 := by
  decide

/-- C7 (amended): every `add_error` call increments the total error counter
and prepends one entry (with the error message in place of the outcome) to
the capped activity ring buffer — but unlike `add_success` it leaves the
daily buckets (and the success total) untouched; only `add_success` bumps the
day bucket. -/
theorem add_error_effects (s : StatsState) (today : String) (ts : Nat)
    (u m k : String) :
    (add_error s today ts u m k).total_errors = s.total_errors + 1 ∧
    (add_error s today ts u m k).daily_unlocks = s.daily_unlocks ∧
    (add_error s today ts u m k).total_unlocks = s.total_unlocks ∧
    (add_error s today ts u m k).activity
      = ((⟨u, m, k, "error", ts⟩ : ActEntry) :: s.activity).take 20 ∧
    (add_success s today ts u m k).total_unlocks = s.total_unlocks + 1 ∧
    lookupDaily (add_success s today ts u m k).daily_unlocks today
      = some ((lookupDaily s.daily_unlocks today).getD 0 + 1) ∧
    (add_success s today ts u m k).activity
      = ((⟨u, m, k, "success", ts⟩ : ActEntry) :: s.activity).take 20 := by
  refine ⟨rfl, rfl, rfl, rfl, rfl, ?_, rfl⟩
  exact lookupDaily_bumpDaily s.daily_unlocks today

/-- C8: the ring buffer of recent activity.  (i) `get_recent` returns at most
`limit` entries; (ii) the stored buffer never exceeds 20 entries under any
recording history; (iii) from a fresh tracker the buffer is exactly the
newest-first reversal of the recorded entries, truncated to 20, and
`get_recent` returns its `limit` newest; (iv) after 25 recordings exactly the
20 newest remain — the 5 oldest are evicted. -/
theorem activity_ring_buffer :
    (∀ s limit, (get_recent s limit).length ≤ limit) ∧
    (∀ s evs, s.activity.length ≤ 20 → (applyEvs s evs).activity.length ≤ 20) ∧
    (∀ evs, (applyEvs emptyStats evs).activity = ((evs.map evEntry).reverse).take 20) ∧
    (∀ evs limit, get_recent (applyEvs emptyStats evs) limit
        = ((evs.map evEntry).reverse).take (min limit 20)) ∧
    (∀ evs, evs.length = 25 →
        (applyEvs emptyStats evs).activity = ((evs.drop 5).map evEntry).reverse ∧
        (applyEvs emptyStats evs).activity.length = 20) := by
  have base : ∀ evs, (applyEvs emptyStats evs).activity
      = ((evs.map evEntry).reverse).take 20 := by
    intro evs
    rw [applyEvs_activity evs emptyStats (by simp [emptyStats])]
    simp [emptyStats]
  refine ⟨?_, ?_, base, ?_, ?_⟩
  · intro s limit; exact List.length_take_le _ _
  · intro s evs hs
    rw [applyEvs_activity evs s hs]
    exact List.length_take_le _ _
  · intro evs limit
    rw [get_recent, base, List.take_take]
  · intro evs hlen
    have hmlen : (evs.map evEntry).length = 25 := by simp [hlen]
    constructor
    · rw [base]
      have h1 : ((evs.map evEntry).reverse).take 20
          = ((evs.map evEntry).drop 5).reverse := by
        rw [take_reverse_eq, hmlen]
      rw [h1]
      congr 1
      rw [List.map_drop]
    · rw [base, List.length_take, List.length_reverse, hmlen]
      decide

/-- C8 witness: a concrete run of 25 successive `record_success` calls from a
fresh tracker leaves exactly 20 entries, and `get_recent 10` returns 10. -/
theorem activity_ring_buffer_w :
    (applyEvs emptyStats
        (List.replicate 25 (StatsEv.succ "2026-10-12" 1 "u" "p" "K1"))).activity.length
      = 20 ∧
    (get_recent (applyEvs emptyStats
        (List.replicate 25 (StatsEv.succ "2026-10-12" 1 "u" "p" "K1"))) 10).length ≤ 10 ∧
    emptyStats.activity.length ≤ 20 ∧
    (applyEvs emptyStats
        (List.replicate 25 (StatsEv.succ "2026-10-12" 1 "u" "p" "K1"))).activity.length
      ≤ 20 := by
  refine ⟨(activity_ring_buffer.2.2.2.2 _ (by simp)).2, activity_ring_buffer.1 _ _,
    by simp [emptyStats], activity_ring_buffer.2.1 _ _ (by simp [emptyStats])⟩

/-! ## Rate-limit telemetry (`LocketAPI._update_rate_limit`, `src/api.py`) -/

/-- A stored rate-limit field: the raw header string, or the integer the
source converts it to when `int(...)` succeeds. -/
inductive RLVal where
  | int (n : Int)
  | str (s : String)
  deriving DecidableEq, Repr

/-- `LocketAPI.rate_limit_info`. -/
structure RateLimitInfo where
  remaining : Option RLVal
  limit : Option RLVal
  reset : Option String
  last_updated : Option Nat
  deriving DecidableEq, Repr

/-- `response.headers.get(k)` over the header list. -/
def hget (hs : List (String × String)) (k : String) : Option String :=
  (hs.find? (fun e => e.1 == k)).map Prod.snd

/-- `response.headers.get(k1, response.headers.get(k2))`. -/
def hget2 (hs : List (String × String)) (k1 k2 : String) : Option String :=
  match hget hs k1 with
  | some v => some v
  | none => hget hs k2

/-- `int(v)` when it parses, else the string is kept (the source's
`try: int(...) except: pass`). -/
def toRLVal (s : String) : RLVal :=
  match s.toInt? with
  | some n => .int n
  | none => .str s

/-- `LocketAPI._update_rate_limit`: every field is assigned from the current
response's headers (`remaining`/`limit` additionally int-converted), and
`last_updated` is stamped with the current time. -/
def update_rate_limit (_info : RateLimitInfo) (hs : List (String × String))
    (now : Nat) : RateLimitInfo :=
  { remaining := (hget2 hs "X-RateLimit-Remaining" "x-ratelimit-remaining").map toRLVal
    limit := (hget2 hs "X-RateLimit-Limit" "x-ratelimit-limit").map toRLVal
    reset := hget2 hs "X-RateLimit-Reset" "x-ratelimit-reset"
    last_updated := some now }

/-- C9 counterexample: a response with no rate-limit headers does NOT leave
the previously stored values untouched — it resets all three fields to
null.  Here the stored remaining/limit/reset values 5/100/"1700000000" are
erased by an update from an empty header set. -/
theorem rate_limit_clobbers :
    (update_rate_limit ⟨some (.int 5), some (.int 100), some "1700000000", some 1⟩
        [] 2).remaining = none ∧
    (update_rate_limit ⟨some (.int 5), some (.int 100), some "1700000000", some 1⟩
        [] 2).limit = none ∧
    (update_rate_limit ⟨some (.int 5), some (.int 100), some "1700000000", some 1⟩
        [] 2).reset = none ∧
    (⟨some (.int 5), some (.int 100), some "1700000000", some 1⟩
        : RateLimitInfo).remaining = some (.int 5) := by
  decide

/-- C9 (amended): `_update_rate_limit` overwrites all stored fields
unconditionally from the current response: the result is independent of the
previously stored values; a header that is present (under either case
variant) replaces the stored field (int-parsed for remaining/limit), and a
missing header resets the stored field to null rather than leaving the prior
value untouched; `last_updated` is always refreshed. -/
theorem update_rate_limit_overwrites :
    (∀ i1 i2 hs now, update_rate_limit i1 hs now = update_rate_limit i2 hs now) ∧
    (∀ i hs now, hget2 hs "X-RateLimit-Remaining" "x-ratelimit-remaining" = none →
      (update_rate_limit i hs now).remaining = none) ∧
    (∀ i hs now v, hget2 hs "X-RateLimit-Remaining" "x-ratelimit-remaining" = some v →
      (update_rate_limit i hs now).remaining = some (toRLVal v)) ∧
    (∀ i hs now, hget2 hs "X-RateLimit-Limit" "x-ratelimit-limit" = none →
      (update_rate_limit i hs now).limit = none) ∧
    (∀ i hs now, hget2 hs "X-RateLimit-Reset" "x-ratelimit-reset" = none →
      (update_rate_limit i hs now).reset = none) ∧
    (∀ i hs now, (update_rate_limit i hs now).last_updated = some now) := by
  refine ⟨fun i1 i2 hs now => rfl, fun i hs now h => ?_, fun i hs now v h => ?_,
    fun i hs now h => ?_, fun i hs now h => ?_, fun i hs now => rfl⟩ <;>
    simp [update_rate_limit, h]

/-- C9 witness: concrete instances of the amended theorem — a present
`X-RateLimit-Remaining: 7` header is stored as the integer 7, and two
different prior infos produce the same updated info. -/
theorem update_rate_limit_overwrites_w :
    (update_rate_limit ⟨none, none, none, none⟩
        [("X-RateLimit-Remaining", "7")] 3).remaining = some (toRLVal "7") ∧
    update_rate_limit ⟨some (.int 5), none, none, none⟩ [] 9
      = update_rate_limit ⟨none, some (.str "x"), some "r", some 4⟩ [] 9 := by
  exact ⟨update_rate_limit_overwrites.2.2.1 _ _ 3 "7" rfl,
    update_rate_limit_overwrites.1 _ _ [] 9⟩

/-! ## Token store administration (`RedisTokenStore.delete_token`) -/

/-- One stored token dict; `name` is optional because the source reads it
with `t.get("name")`. -/
structure TokenCfg where
  name : Option String
  fetch_token : String
  app_transaction : String
  is_sandbox : Bool
  deriving DecidableEq, Repr

/-- `RedisTokenStore.delete_token` (in-memory path): filter out every token
whose name equals `token_name`; save and return `True` only when the list
shrank, else leave the store untouched and return `False`. -/
def delete_token (tokens : List TokenCfg) (token_name : String) :
    List TokenCfg × Bool :=
  let updated := tokens.filter (fun t => t.name != some token_name)
  if tokens.length ≠ updated.length then (updated, true) else (tokens, false)

/-- C10: `delete_token` removes exactly the stored credentials whose name
equals the given name, keeps every other credential in its original relative
order (the result is a sublist of the original), and returns `True` iff at
least one credential was removed; on `False` the stored list is unchanged. -/
theorem delete_token_spec (tokens : List TokenCfg) (n : String) :
    ((delete_token tokens n).1).Sublist tokens ∧
    (∀ t, t ∈ (delete_token tokens n).1 ↔ (t ∈ tokens ∧ t.name ≠ some n)) ∧
    ((delete_token tokens n).2 = true ↔ ∃ t ∈ tokens, t.name = some n) ∧
    ((delete_token tokens n).2 = false → (delete_token tokens n).1 = tokens) := by
  by_cases h : tokens.length ≠ (tokens.filter (fun t => t.name != some n)).length
  · have hres : delete_token tokens n
        = (tokens.filter (fun t => t.name != some n), true) := by
      simp only [delete_token]
      rw [if_pos h]
    rw [hres]
    refine ⟨List.filter_sublist _, fun t => ?_, ?_, by simp⟩
    · simp [List.mem_filter]
    · simp only [true_iff]
      by_contra hno
      push_neg at hno
      apply h
      have : tokens.filter (fun t => t.name != some n) = tokens :=
        List.filter_eq_self.mpr (fun t ht => by
          simpa using hno t ht)
      rw [this]
  · push_neg at h
    have heq : tokens.filter (fun t => t.name != some n) = tokens :=
      (List.filter_sublist _).eq_of_length h.symm
    have hres : delete_token tokens n = (tokens, false) := by
      simp only [delete_token, h, ne_eq, not_true_eq_false, if_false]
    rw [hres]
    have hall : ∀ t ∈ tokens, t.name ≠ some n := by
      intro t ht
      have := List.filter_eq_self.mp heq t ht
      simpa using this
    refine ⟨List.Sublist.refl _, fun t => ?_, ?_, fun _ => rfl⟩
    · exact ⟨fun ht => ⟨ht, hall t ht⟩, fun ht => ht.1⟩
    · refine iff_of_false (by simp) ?_
      rintro ⟨t, ht, hn⟩
      exact hall t ht hn

/-- C10 witness: on a concrete two-token store, deleting "a" removes exactly
the token named "a" and reports `True`; deleting a missing name reports
`False` and leaves the store unchanged. -/
theorem delete_token_spec_w :
    (delete_token [⟨some "a", "f", "t", false⟩, ⟨some "b", "g", "u", true⟩] "a").2
      = true ∧
    (delete_token [⟨some "a", "f", "t", false⟩, ⟨some "b", "g", "u", true⟩] "zz").1
      = [⟨some "a", "f", "t", false⟩, ⟨some "b", "g", "u", true⟩] := by
  constructor
  · exact (delete_token_spec _ "a").2.2.1.mpr ⟨⟨some "a", "f", "t", false⟩, by decide, rfl⟩
  · exact (delete_token_spec _ "zz").2.2.2 (by decide)

/-! ## Credential pool (round-robin rotation with permanent banning) -/

/-- One rotating credential (a "token set"): identification plus the
liveness flag flipped by banning. -/
structure Credential where
  name : String
  fetch_token : String
  app_transaction : String
  is_sandbox : Bool
  alive : Bool
  deriving DecidableEq, Repr

/-- The credential pool: the backing credential list and the rotation
cursor. -/
structure CredentialPool where
  creds : List Credential
  cursor : Nat
  deriving DecidableEq, Repr

/-- Modelled from the spec: `token_store.get_next_token` is called by
`restorePurchase` in `src/api.py` but is defined in no file under `src/`.
Spec §4.2: "advances a rotation cursor over the live subset of the
configured credential set and returns the next one in round-robin order,
skipping dead entries; if no live credential remains", it fails (`none`
here, the `ExhaustedError` signal). -/
def get_next_token (p : CredentialPool) : Option (Credential × CredentialPool) :=
  match (List.range p.creds.length).find? (fun k =>
      match p.creds[(p.cursor + k) % p.creds.length]? with
      | some c => c.alive
      | none => false) with
  | some k =>
    match p.creds[(p.cursor + k) % p.creds.length]? with
    | some c => some (c, { p with cursor := (p.cursor + k) % p.creds.length + 1 })
    | none => none
  | none => none

/-- Modelled from the spec: `token_store.ban_token` is called by
`restorePurchase` in `src/api.py` but is defined in no file under `src/`.
Spec §4.2: "marks the named credential dead, permanently removing it from
rotation for the remainder of the process lifetime". -/
def ban_token (p : CredentialPool) (name : String) : CredentialPool :=
  { p with creds := p.creds.map (fun c =>
      if c.name == name then { c with alive := false } else c) }

/-- An operation on the pool, for runs of arbitrary operation sequences. -/
inductive PoolOp where
  | next
  | ban (name : String)
  deriving DecidableEq, Repr

/-- Run a sequence of pool operations, collecting every credential a `next`
selection returns. -/
def runPool : CredentialPool → List PoolOp → CredentialPool × List Credential
  | p, [] => (p, [])
  | p, .next :: ops =>
    match get_next_token p with
    | some (c, p') =>
      let r := runPool p' ops
      (r.1, c :: r.2)
    | none => runPool p ops
  | p, .ban n :: ops => runPool (ban_token p n) ops

/-- All credentials carrying this name are dead in the pool. -/
def deadFor (p : CredentialPool) (n : String) : Prop :=
  ∀ c ∈ p.creds, c.name = n → c.alive = false

lemma get_next_token_eq_some {p : CredentialPool} {c : Credential}
    {p' : CredentialPool} (h : get_next_token p = some (c, p')) :
    c.alive = true ∧ c ∈ p.creds ∧ p'.creds = p.creds := by
  unfold get_next_token at h
  rcases hf : (List.range p.creds.length).find? (fun k =>
      match p.creds[(p.cursor + k) % p.creds.length]? with
      | some c => c.alive
      | none => false) with _ | k
  · simp [hf] at h
  · simp only [hf] at h
    have hp := List.find?_some hf
    rcases hg : p.creds[(p.cursor + k) % p.creds.length]? with _ | c0
    · simp [hg] at h
    · simp only [hg] at h
      simp only [Option.some.injEq, Prod.mk.injEq] at h
      obtain ⟨hc, hp'⟩ := h
      subst hc
      rw [hg] at hp
      exact ⟨hp, List.getElem?_mem hg, by rw [← hp']⟩

lemma deadFor_ban_self (p : CredentialPool) (n : String) :
    deadFor (ban_token p n) n := by
  intro c hc hn
  simp only [ban_token, List.mem_map] at hc
  obtain ⟨c0, _, hc0⟩ := hc
  by_cases h : c0.name == n
  · rw [if_pos h] at hc0; rw [← hc0]
  · rw [if_neg h] at hc0
    rw [← hc0] at hn
    exact absurd hn (by simpa using h)

lemma deadFor_ban (p : CredentialPool) (n m : String) (hd : deadFor p n) :
    deadFor (ban_token p m) n := by
  intro c hc hn
  simp only [ban_token, List.mem_map] at hc
  obtain ⟨c0, hc0mem, hc0⟩ := hc
  by_cases h : c0.name == m
  · rw [if_pos h] at hc0; rw [← hc0]
  · rw [if_neg h] at hc0
    rw [← hc0] at hn ⊢
    exact hd c0 hc0mem hn

lemma deadFor_run (p : CredentialPool) (n : String) (ops : List PoolOp)
    (hd : deadFor p n) :
    deadFor (runPool p ops).1 n ∧ ∀ c ∈ (runPool p ops).2, c.name ≠ n := by
  induction ops generalizing p with
  | nil => exact ⟨hd, by simp [runPool]⟩
  | cons op ops ih =>
    cases op with
    | next =>
      rcases hn : get_next_token p with _ | cp
      · simpa [runPool, hn] using ih p hd
      · obtain ⟨c, p'⟩ := cp
        obtain ⟨halive, hmem, hcreds⟩ := get_next_token_eq_some hn
        have hd' : deadFor p' n := by
          intro x hx; rw [hcreds] at hx; exact hd x hx
        have hres := ih p' hd'
        refine ⟨by simpa [runPool, hn] using hres.1, ?_⟩
        intro x hx
        simp only [runPool, hn, List.mem_cons] at hx
        rcases hx with rfl | hx
        · intro hxn
          have := hd x hmem hxn
          rw [halive] at this
          exact Bool.true_eq_false.mp this
        · exact hres.2 x hx
    | ban m =>
      simpa [runPool] using ih (ban_token p m) (deadFor_ban p n m hd)

/-- C5: credential selection safety.  (i) `get_next_token` never returns a
credential with `alive = false`; (ii) after `ban_token X`, no selection in
any subsequent operation sequence ever returns a credential named `X`;
(iii) when no live credential remains, selection yields the distinct
exhausted signal (`none`) instead of a credential. -/
theorem credential_pool_safety :
    (∀ (p : CredentialPool) (c : Credential) (p' : CredentialPool),
      get_next_token p = some (c, p') → c.alive = true) ∧
    (∀ (p : CredentialPool) (x : String) (ops : List PoolOp)
      (c : Credential), c ∈ (runPool (ban_token p x) ops).2 → c.name ≠ x) ∧
    (∀ p : CredentialPool, (∀ c ∈ p.creds, c.alive = false) →
      get_next_token p = none) := by
  refine ⟨fun p c p' h => (get_next_token_eq_some h).1,
    fun p x ops c hc => (deadFor_run _ x ops (deadFor_ban_self p x)).2 c hc, ?_⟩
  intro p hdead
  unfold get_next_token
  have hf : (List.range p.creds.length).find? (fun k =>
      match p.creds[(p.cursor + k) % p.creds.length]? with
      | some c => c.alive
      | none => false) = none := by
    rw [List.find?_eq_none]
    intro k _
    rcases hg : p.creds[(p.cursor + k) % p.creds.length]? with _ | c
    · simp
    · simp only [hg]
      rw [hdead c (List.getElem?_mem hg)]
      simp
  rw [hf]

/-- C5 witness: the spec's concrete scenario — pool [K1, K2], ban K1, two
selections both return K2 (never K1); banning K2 as well makes the next
selection exhausted. -/
theorem credential_pool_safety_w :
    (runPool (ban_token ⟨[⟨"K1", "f1", "a1", false, true⟩,
        ⟨"K2", "f2", "a2", false, true⟩], 0⟩ "K1") [.next, .next]).2
      = [⟨"K2", "f2", "a2", false, true⟩, ⟨"K2", "f2", "a2", false, true⟩] ∧
    (⟨"K2", "f2", "a2", false, true⟩ : Credential).name ≠ "K1" ∧
    get_next_token (ban_token (ban_token ⟨[⟨"K1", "f1", "a1", false, true⟩,
        ⟨"K2", "f2", "a2", false, true⟩], 0⟩ "K1") "K2") = none := by
  refine ⟨by decide, ?_, ?_⟩
  · exact credential_pool_safety.2.1 ⟨[⟨"K1", "f1", "a1", false, true⟩,
      ⟨"K2", "f2", "a2", false, true⟩], 0⟩ "K1" [.next, .next]
      ⟨"K2", "f2", "a2", false, true⟩ (by decide)
  · exact credential_pool_safety.2.2 _ (by decide)

/-! ## The worker pipeline: `_process_request` + `restorePurchase` -/

/-- Job status values of the queue manager. -/
inductive Status where
  | waiting
  | processing
  | completed
  | error
  deriving DecidableEq, Repr

/-- `pat in s` on Python strings: `pat` occurs as a contiguous substring. -/
def strContains (s pat : String) : Bool :=
  (List.range (s.data.length + 1)).any (fun i => pat.data.isPrefixOf (s.data.drop i))

/-- The retry trigger of `_process_request`:
`"401" in str(e) or "Unauthenticated" in str(e)`. -/
def isAuthMsg (e : String) : Bool :=
  strContains e "401" || strContains e "Unauthenticated"

/-- The dead-token test of `restorePurchase`:
`status_code in [401, 403] or "Invalid token" in text or "not authorized" in
text.lower() or "Invalid API Key" in text`. -/
def deadTokenResp (status : Nat) (text : String) : Bool :=
  status == 401 || status == 403 || strContains text "Invalid token" ||
    strContains text.toLower "not authorized" || strContains text "Invalid API Key"

/-- The message of the dead-token exception raised by `restorePurchase`. -/
def deadMsg (name text : String) : String :=
  "Token Bị Tử Hình [" ++ name ++ "]: " ++ text

/-- The outcome of one privileged-operation HTTP exchange, as far as the
pipeline inspects it: success carrying the Gold entitlement's
`product_identifier` (if any), or a failure status code and body text. -/
inductive HttpResp where
  | ok (goldProduct : Option String)
  | err (status : Nat) (text : String)
  deriving DecidableEq, Repr

/-- `LocketAPI.restorePurchase` (`src/api.py`): select the next live
credential (exhausted pool is a distinct error), validate its fields, then
interpret the response: on a dead-token failure ban the credential and raise
the dead-token message, on any other failure raise the generic message; on
success return the Gold product identifier together with the used
credential's name. -/
def restorePurchase (p : CredentialPool) (resp : HttpResp) :
    Except String (Option String × String) × CredentialPool :=
  match get_next_token p with
  | none =>
    (.error "Tất cả Token hiện tại đều đã Die hoặc Hết dung lượng khởi chạy. Xin báo Admin nạp thêm!", p)
  | some (tok, p') =>
    if tok.fetch_token = "" ∨ tok.app_transaction = "" then
      (.error "Invalid TOKEN_SET config: missing fetch_token or app_transaction", p')
    else
      match resp with
      | .ok gold => (.ok (gold, tok.name), p')
      | .err st tx =>
        if deadTokenResp st tx then
          (.error (deadMsg tok.name tx), ban_token p' tok.name)
        else
          (.error ("API request failed with status code " ++ toString st ++ ": " ++ tx), p')

/-- The result of one `_process_request` run: the terminal job fields plus
the attempt counts of the two pipeline steps and the final pool. -/
structure PRResult where
  status : Status
  result : Option String
  error : Option String
  userAttempts : Nat
  restoreAttempts : Nat
  pool : CredentialPool
  deriving Repr

/-- The user-lookup step with `_process_request`'s retry rule: one retry
only when the failure message carries the auth marker and the token refresh
succeeds.  Returns the result and the number of `getUserByUsername` calls. -/
def userStep (refreshOk : Bool) (userResp : Nat → Except String String) :
    Except String String × Nat :=
  match userResp 0 with
  | .ok uid => (Except.ok uid, 1)
  | .error e =>
    if isAuthMsg e then
      if refreshOk then (userResp 1, 2) else (Except.error e, 1)
    else (Except.error e, 1)

/-- The privileged-operation step with `_process_request`'s retry rule.
Returns the result, the number of `restorePurchase` calls, and the pool
after all calls. -/
def restoreStep (refreshOk : Bool) (restoreResp : Nat → HttpResp)
    (pool : CredentialPool) :
    Except String (Option String × String) × Nat × CredentialPool :=
  match restorePurchase pool (restoreResp 0) with
  | (.ok v, p1) => (Except.ok v, 1, p1)
  | (.error e, p1) =>
    if isAuthMsg e then
      if refreshOk then
        match restorePurchase p1 (restoreResp 1) with
        | (r2, p2) => (r2, 2, p2)
      else (Except.error e, 1, p1)
    else (Except.error e, 1, p1)

/-- `QueueManager._process_request` (`src/queue_manager.py`): resolve the
user (one retry when the failure message carries the auth marker and the
token refresh succeeds), call `restorePurchase` (same retry rule), then
classify the Gold entitlement against the subscription allow-list; any
raised error becomes the terminal `status = error` with its message.  The
external world enters through `userResp`/`restoreResp`, indexed by attempt
number. -/
def processRequest (username : String) (subs : List String) (refreshOk : Bool)
    (userResp : Nat → Except String String) (restoreResp : Nat → HttpResp)
    (pool : CredentialPool) : PRResult :=
  match userStep refreshOk userResp with
  | (.error e, uAtt) => ⟨.error, none, some e, uAtt, 0, pool⟩
  | (.ok _uid, uAtt) =>
    match restoreStep refreshOk restoreResp pool with
    | (.error e, rAtt, pool2) => ⟨.error, none, some e, uAtt, rAtt, pool2⟩
    | (.ok (gold, _tokName), rAtt, pool2) =>
      match gold with
      | some g =>
        if subs.contains g then
          ⟨.completed, some ("Purchase " ++ g ++ " for " ++ username ++ " successfully!"),
            none, uAtt, rAtt, pool2⟩
        else
          ⟨.error, none,
            some ("Restore purchase failed. Gold entitlement not found for " ++ username ++ "."),
            uAtt, rAtt, pool2⟩
      | none =>
        ⟨.error, none,
          some ("Restore purchase failed. Gold entitlement not found for " ++ username ++ "."),
          uAtt, rAtt, pool2⟩

lemma userStep_attempts (refreshOk : Bool) (userResp : Nat → Except String String) :
    (userStep refreshOk userResp).2 ≤ 2 := by
  unfold userStep
  rcases userResp 0 with e | uid
  · by_cases h : isAuthMsg e
    · by_cases hr : refreshOk <;> simp [h, hr]
    · simp [h]
  · simp

lemma restoreStep_attempts (refreshOk : Bool) (restoreResp : Nat → HttpResp)
    (pool : CredentialPool) :
    (restoreStep refreshOk restoreResp pool).2.1 ≤ 2 := by
  unfold restoreStep
  rcases h0 : restorePurchase pool (restoreResp 0) with ⟨r1, p1⟩
  rcases r1 with e | v
  · by_cases h : isAuthMsg e
    · by_cases hr : refreshOk
      · rcases h1 : restorePurchase p1 (restoreResp 1) with ⟨r2, p2⟩
        simp [h, hr, h1]
      · simp [h, hr]
    · simp [h]
  · simp

lemma processRequest_attempts (username : String) (subs : List String)
    (refreshOk : Bool) (userResp : Nat → Except String String)
    (restoreResp : Nat → HttpResp) (pool : CredentialPool) :
    (processRequest username subs refreshOk userResp restoreResp pool).userAttempts
      = (userStep refreshOk userResp).2 ∧
    ((processRequest username subs refreshOk userResp restoreResp pool).restoreAttempts
        = (restoreStep refreshOk restoreResp pool).2.1 ∨
      (processRequest username subs refreshOk userResp restoreResp pool).restoreAttempts
        = 0) := by
  unfold processRequest
  rcases hu : userStep refreshOk userResp with ⟨ru, uAtt⟩
  rcases ru with e | uid
  · simp
  · rcases hr : restoreStep refreshOk restoreResp pool with ⟨rr, rAtt, pool2⟩
    rcases rr with e | ⟨gold, tokName⟩
    · simp
    · rcases gold with _ | g
      · simp
      · by_cases hs : g ∈ subs <;> simp [hs]

/-- When the response is a failure, `restorePurchase` yields an error
result (exhausted pool, invalid config, dead token or generic failure). -/
lemma restorePurchase_err_isError (p : CredentialPool) (st : Nat) (tx : String) :
    ∃ e, (restorePurchase p (.err st tx)).1 = .error e := by
  unfold restorePurchase
  rcases hn : get_next_token p with _ | ⟨tok, p'⟩
  · exact ⟨_, rfl⟩
  · by_cases hc : tok.fetch_token = "" ∨ tok.app_transaction = ""
    · simp only [hc, if_true]
      exact ⟨_, rfl⟩
    · by_cases hd : deadTokenResp st tx <;> simp [hc, hd]

lemma restorePurchase_preserves_dead (p : CredentialPool) (n : String)
    (resp : HttpResp) (hd : deadFor p n) :
    deadFor (restorePurchase p resp).2 n := by
  unfold restorePurchase
  rcases hn : get_next_token p with _ | ⟨tok, p'⟩
  · exact hd
  · have hcreds := (get_next_token_eq_some hn).2.2
    have hd' : deadFor p' n := by
      intro c hc; rw [hcreds] at hc; exact hd c hc
    by_cases hc : tok.fetch_token = "" ∨ tok.app_transaction = ""
    · simpa [hc] using hd'
    · rcases resp with gold | ⟨st, tx⟩
      · simpa [hc] using hd'
      · by_cases hdt : deadTokenResp st tx
        · simpa [hc, hdt] using deadFor_ban p' n tok.name hd'
        · simpa [hc, hdt] using hd'

/-- On the hypotheses of a credential-proven-dead first attempt,
`restorePurchase` bans the selected credential and raises the dead-token
message. -/
lemma restorePurchase_dead (p : CredentialPool) (tok : Credential)
    (p' : CredentialPool) (st : Nat) (tx : String)
    (hn : get_next_token p = some (tok, p'))
    (hf : tok.fetch_token ≠ "") (ha : tok.app_transaction ≠ "")
    (hd : deadTokenResp st tx = true) :
    restorePurchase p (.err st tx)
      = (.error (deadMsg tok.name tx), ban_token p' tok.name) := by
  have hcond : ¬(tok.fetch_token = "" ∨ tok.app_transaction = "") := by
    simp [hf, ha]
  unfold restorePurchase
  rw [hn]
  simp [hcond, hd]

/-- C6 counterexample: a credential-proven-dead failure that is NOT retried.
The first privileged-operation attempt fails with HTTP 403 and body
"Invalid API Key" — the dead-token test fires, so the credential K1 is
banned — but the raised message "Token Bị Tử Hình [K1]: Invalid API Key"
contains neither "401" nor "Unauthenticated", so `_process_request`'s retry
condition does not fire: the step is attempted exactly once (no retry) and
the job goes terminal with status=error, refuting "bans that credential and
retries that step exactly once". -/
theorem dead_token_no_retry :
    deadTokenResp 403 "Invalid API Key" = true ∧
    (processRequest "alice" ["locket_199_1m"] true (fun _ => .ok "uid1")
        (fun _ => .err 403 "Invalid API Key")
        ⟨[⟨"K1", "f1", "a1", false, true⟩, ⟨"K2", "f2", "a2", false, true⟩], 0⟩).restoreAttempts
      = 1 ∧
    (processRequest "alice" ["locket_199_1m"] true (fun _ => .ok "uid1")
        (fun _ => .err 403 "Invalid API Key")
        ⟨[⟨"K1", "f1", "a1", false, true⟩, ⟨"K2", "f2", "a2", false, true⟩], 0⟩).status
      = .error ∧
    (∀ c ∈ (processRequest "alice" ["locket_199_1m"] true (fun _ => .ok "uid1")
        (fun _ => .err 403 "Invalid API Key")
        ⟨[⟨"K1", "f1", "a1", false, true⟩, ⟨"K2", "f2", "a2", false, true⟩], 0⟩).pool.creds,
      c.name = "K1" → c.alive = false) := by
  decide

/-- C6 (amended): each pipeline step is attempted at most twice.  On a
credential-proven-dead failure of the first privileged-operation attempt the
selected credential is always banned, but the step is retried (exactly once,
with a freshly selected credential) only when the raised dead-token message
happens to contain "401" or "Unauthenticated" and the token refresh
succeeds; otherwise the job goes terminal with status=error after a single
attempt.  When the retry happens and also fails, the job goes terminal with
status=error. -/
theorem retry_policy (username : String) (subs : List String) (refreshOk : Bool)
    (userResp : Nat → Except String String) (restoreResp : Nat → HttpResp)
    (pool : CredentialPool) :
    (processRequest username subs refreshOk userResp restoreResp pool).userAttempts ≤ 2 ∧
    (processRequest username subs refreshOk userResp restoreResp pool).restoreAttempts ≤ 2 ∧
    (∀ uid st tx tok p',
      userResp 0 = .ok uid →
      restoreResp 0 = .err st tx →
      get_next_token pool = some (tok, p') →
      tok.fetch_token ≠ "" → tok.app_transaction ≠ "" →
      deadTokenResp st tx = true →
      (∀ c ∈ (processRequest username subs refreshOk userResp restoreResp pool).pool.creds,
          c.name = tok.name → c.alive = false) ∧
      ((processRequest username subs refreshOk userResp restoreResp pool).restoreAttempts = 2
        ↔ (isAuthMsg (deadMsg tok.name tx) = true ∧ refreshOk = true)) ∧
      ((isAuthMsg (deadMsg tok.name tx) = false ∨ refreshOk = false) →
        (processRequest username subs refreshOk userResp restoreResp pool).status = .error ∧
        (processRequest username subs refreshOk userResp restoreResp pool).restoreAttempts = 1) ∧
      (∀ st2 tx2, restoreResp 1 = .err st2 tx2 →
        isAuthMsg (deadMsg tok.name tx) = true → refreshOk = true →
        (processRequest username subs refreshOk userResp restoreResp pool).status = .error)) := by
  obtain ⟨hu, hr⟩ := processRequest_attempts username subs refreshOk userResp restoreResp pool
  refine ⟨by rw [hu]; exact userStep_attempts _ _, ?_, ?_⟩
  · rcases hr with h | h <;> rw [h]
    · exact restoreStep_attempts _ _ _
    · exact Nat.zero_le 2
  · intro uid st tx tok p' hu0 hr0 hn hf ha hd
    have hustep : userStep refreshOk userResp = (Except.ok uid, 1) := by
      unfold userStep; rw [hu0]
    have hr1 : restorePurchase pool (restoreResp 0)
        = (.error (deadMsg tok.name tx), ban_token p' tok.name) := by
      rw [hr0]; exact restorePurchase_dead pool tok p' st tx hn hf ha hd
    have hbanned : deadFor (ban_token p' tok.name) tok.name := deadFor_ban_self p' tok.name
    by_cases hauth : isAuthMsg (deadMsg tok.name tx)
    · by_cases href : refreshOk
      · -- retried once with the post-ban pool
        have hrstep : restoreStep refreshOk restoreResp pool
            = ((restorePurchase (ban_token p' tok.name) (restoreResp 1)).1, 2,
               (restorePurchase (ban_token p' tok.name) (restoreResp 1)).2) := by
          unfold restoreStep
          rw [hr1]
          simp [hauth, href]
        rcases h2 : restorePurchase (ban_token p' tok.name) (restoreResp 1) with ⟨r2, p2⟩
        have hprocpool :
            (processRequest username subs refreshOk userResp restoreResp pool).pool = p2 := by
          unfold processRequest
          rw [hustep, hrstep, h2]
          rcases r2 with e | ⟨gold, tokName⟩
          · simp
          · rcases gold with _ | g
            · simp
            · by_cases hs : g ∈ subs <;> simp [hs]
        have hdead2 : deadFor p2 tok.name := by
          have := restorePurchase_preserves_dead (ban_token p' tok.name) tok.name
            (restoreResp 1) hbanned
          rwa [h2] at this
        refine ⟨by rw [hprocpool]; exact hdead2, ?_, ?_, ?_⟩
        · have : (processRequest username subs refreshOk userResp restoreResp pool).restoreAttempts
              = 2 := by
            unfold processRequest
            rw [hustep, hrstep, h2]
            rcases r2 with e | ⟨gold, tokName⟩
            · simp
            · rcases gold with _ | g
              · simp
              · by_cases hs : g ∈ subs <;> simp [hs]
          exact iff_of_true this ⟨hauth, href⟩
        · intro hcon
          rcases hcon with hcon | hcon
          · rw [hauth] at hcon; exact absurd hcon (by simp)
          · rw [href] at hcon; exact absurd hcon (by simp)
        · intro st2 tx2 hresp2 _ _
          obtain ⟨e2, he2⟩ := restorePurchase_err_isError (ban_token p' tok.name) st2 tx2
          rw [← hresp2] at he2
          rw [h2] at he2
          have hr2e : r2 = .error e2 := he2
          unfold processRequest
          rw [hustep, hrstep, h2]
          simp [hr2e]
      · -- auth marker present but refresh failed: no retry, terminal error
        have hrstep : restoreStep refreshOk restoreResp pool
            = (.error (deadMsg tok.name tx), 1, ban_token p' tok.name) := by
          unfold restoreStep
          rw [hr1]
          simp [hauth, href]
        have hres : processRequest username subs refreshOk userResp restoreResp pool
            = ⟨.error, none, some (deadMsg tok.name tx), 1, 1, ban_token p' tok.name⟩ := by
          unfold processRequest
          rw [hustep, hrstep]
        rw [hres]
        refine ⟨fun c hc => hbanned c hc, ?_, fun _ => ⟨rfl, rfl⟩, ?_⟩
        · simp [href]
        · intro st2 tx2 _ _ hcon
          exact absurd hcon href
    · -- no auth marker in the message: no retry, terminal error
      have hrstep : restoreStep refreshOk restoreResp pool
          = (.error (deadMsg tok.name tx), 1, ban_token p' tok.name) := by
        unfold restoreStep
        rw [hr1]
        simp [hauth]
      have hres : processRequest username subs refreshOk userResp restoreResp pool
          = ⟨.error, none, some (deadMsg tok.name tx), 1, 1, ban_token p' tok.name⟩ := by
        unfold processRequest
        rw [hustep, hrstep]
      rw [hres]
      refine ⟨fun c hc => hbanned c hc, ?_, fun _ => ⟨rfl, rfl⟩, ?_⟩
      · simp [hauth]
      · intro st2 tx2 _ hcon
        exact absurd hcon (by simp [hauth])

/-- C6 witness: a dead-token failure whose body text contains "401" IS
retried: the first attempt bans K1, the retry selects K2 and also fails, the
job ends in error after exactly two attempts, and K1 stays dead. -/
theorem retry_policy_w :
    (processRequest "alice" ["locket_199_1m"] true (fun _ => .ok "uid1")
        (fun _ => .err 401 "401 Invalid token")
        ⟨[⟨"K1", "f1", "a1", false, true⟩, ⟨"K2", "f2", "a2", false, true⟩], 0⟩).restoreAttempts
      = 2 ∧
    (processRequest "alice" ["locket_199_1m"] true (fun _ => .ok "uid1")
        (fun _ => .err 401 "401 Invalid token")
        ⟨[⟨"K1", "f1", "a1", false, true⟩, ⟨"K2", "f2", "a2", false, true⟩], 0⟩).status
      = .error ∧
    (∀ c ∈ (processRequest "alice" ["locket_199_1m"] true (fun _ => .ok "uid1")
        (fun _ => .err 401 "401 Invalid token")
        ⟨[⟨"K1", "f1", "a1", false, true⟩, ⟨"K2", "f2", "a2", false, true⟩], 0⟩).pool.creds,
      c.name = "K1" → c.alive = false) ∧
    (processRequest "alice" ["locket_199_1m"] true (fun _ => .ok "uid1")
        (fun _ => .err 401 "401 Invalid token")
        ⟨[⟨"K1", "f1", "a1", false, true⟩, ⟨"K2", "f2", "a2", false, true⟩], 0⟩).userAttempts
      ≤ 2 := by
  have h := retry_policy "alice" ["locket_199_1m"] true (fun _ => .ok "uid1")
    (fun _ => .err 401 "401 Invalid token")
    ⟨[⟨"K1", "f1", "a1", false, true⟩, ⟨"K2", "f2", "a2", false, true⟩], 0⟩
  have h3 := h.2.2 "uid1" 401 "401 Invalid token"
    ⟨"K1", "f1", "a1", false, true⟩
    ⟨[⟨"K1", "f1", "a1", false, true⟩, ⟨"K2", "f2", "a2", false, true⟩], 1⟩
    rfl rfl (by decide) (by decide) (by decide) (by decide)
  refine ⟨h3.2.1.mpr ⟨by decide, rfl⟩, ?_, h3.1, h.1⟩
  exact h3.2.2.2 401 "401 Invalid token" rfl (by decide) rfl

/-! ## The queue manager (`QueueManager`, `src/queue_manager.py`) -/

/-- One entry of `client_requests`, as created by `add_to_queue`. -/
structure Job where
  username : String
  status : Status
  result : Option String
  error : Option String
  added_at : Nat
  started_at : Option Nat
  completed_at : Option Nat
  deriving DecidableEq, Repr

/-- `client_requests[k]` read: the value of the first entry with this key. -/
def lookupId (l : List (String × Job)) (k : String) : Option Job :=
  (l.find? (fun e => e.1 == k)).map Prod.snd

/-- `client_requests[k] = j`: replace the entry in place, or append a fresh
key (Python dict assignment). -/
def setId : List (String × Job) → String → Job → List (String × Job)
  | [], k, j => [(k, j)]
  | e :: l, k, j => if e.1 == k then (e.1, j) :: l else e :: setId l k j

/-- The key column of the table. -/
def keysOf (l : List (String × Job)) : List String := l.map Prod.fst

lemma lookupId_cons_pos {e : String × Job} {l : List (String × Job)} {k : String}
    (h : (e.1 == k) = true) : lookupId (e :: l) k = some e.2 := by
  unfold lookupId
  rw [List.find?_cons_of_pos l h]
  rfl

lemma lookupId_cons_neg {e : String × Job} {l : List (String × Job)} {k : String}
    (h : ¬((e.1 == k) = true)) : lookupId (e :: l) k = lookupId l k := by
  unfold lookupId
  rw [List.find?_cons_of_neg l h]

lemma lookupId_setId_self (l : List (String × Job)) (k : String) (j : Job) :
    lookupId (setId l k j) k = some j := by
  induction l with
  | nil => simp [setId, lookupId]
  | cons e l ih =>
    by_cases h : (e.1 == k) = true
    · rw [setId, if_pos h]
      exact lookupId_cons_pos (by simpa using h)
    · rw [setId, if_neg h]
      rw [lookupId_cons_neg h]
      exact ih

lemma lookupId_setId_ne (l : List (String × Job)) (k k' : String) (j : Job)
    (h : k' ≠ k) : lookupId (setId l k j) k' = lookupId l k' := by
  induction l with
  | nil =>
    have hne : ¬((((k, j) : String × Job).1 == k') = true) := by
      simp only [beq_iff_eq]
      exact fun hc => h hc.symm
    show lookupId ((k, j) :: []) k' = lookupId [] k'
    rw [lookupId_cons_neg hne]
  | cons e l ih =>
    by_cases h1 : (e.1 == k) = true
    · rw [setId, if_pos h1]
      have he : e.1 = k := by simpa using h1
      have hne : ¬((e.1 == k') = true) := by
        simp only [beq_iff_eq]
        rw [he]; exact fun hc => h hc.symm
      have hne1 : ¬((((e.1, j) : String × Job).1 == k') = true) := hne
      rw [lookupId_cons_neg hne1, lookupId_cons_neg hne]
    · rw [setId, if_neg h1]
      by_cases h2 : (e.1 == k') = true
      · rw [lookupId_cons_pos h2, lookupId_cons_pos h2]
      · rw [lookupId_cons_neg h2, lookupId_cons_neg h2]
        exact ih

lemma keys_setId_mem (l : List (String × Job)) (k : String) (j : Job)
    (h : k ∈ keysOf l) : keysOf (setId l k j) = keysOf l := by
  induction l with
  | nil => simp [keysOf] at h
  | cons e l ih =>
    by_cases h1 : (e.1 == k) = true
    · rw [setId, if_pos h1]; rfl
    · rw [setId, if_neg h1]
      have hek : e.1 ≠ k := by simpa using h1
      have h2 : k ∈ keysOf l := by
        rcases List.mem_cons.mp h with hc | hm
        · exact absurd hc.symm hek
        · exact hm
      show e.1 :: keysOf (setId l k j) = e.1 :: keysOf l
      rw [ih h2]

lemma keys_setId_new (l : List (String × Job)) (k : String) (j : Job)
    (h : k ∉ keysOf l) : keysOf (setId l k j) = keysOf l ++ [k] := by
  induction l with
  | nil => rfl
  | cons e l ih =>
    by_cases h1 : (e.1 == k) = true
    · have hek : e.1 = k := by simpa using h1
      exact absurd (List.mem_cons.mpr (Or.inl hek.symm)) h
    · rw [setId, if_neg h1]
      have h2 : k ∉ keysOf l := fun hc => h (List.mem_cons.mpr (Or.inr hc))
      show e.1 :: keysOf (setId l k j) = (e.1 :: keysOf l) ++ [k]
      rw [ih h2]; rfl

lemma nodupKeys_setId (l : List (String × Job)) (k : String) (j : Job)
    (h : (keysOf l).Nodup) : (keysOf (setId l k j)).Nodup := by
  by_cases hm : k ∈ keysOf l
  · rw [keys_setId_mem l k j hm]; exact h
  · rw [keys_setId_new l k j hm]
    refine h.append (List.nodup_singleton k) ?_
    intro a ha hb
    rw [List.mem_singleton] at hb
    subst hb
    exact hm ha

lemma mem_setId {e : String × Job} {l : List (String × Job)} {k : String}
    {j : Job} (h : e ∈ setId l k j) : e ∈ l ∨ e = (k, j) := by
  induction l with
  | nil =>
    simp only [setId, List.mem_singleton] at h
    right; exact h
  | cons a l ih =>
    by_cases h1 : (a.1 == k) = true
    · rw [setId, if_pos h1] at h
      rcases List.mem_cons.mp h with rfl | hm
      · right
        have : a.1 = k := by simpa using h1
        rw [this]
      · left; exact List.mem_cons_of_mem _ hm
    · rw [setId, if_neg h1] at h
      rcases List.mem_cons.mp h with rfl | hm
      · left; exact List.mem_cons_self _ _
      · rcases ih hm with hl | hj
        · left; exact List.mem_cons_of_mem _ hl
        · right; exact hj

lemma mem_setId_nodup {e : String × Job} {l : List (String × Job)} {k : String}
    {j : Job} (hn : (keysOf l).Nodup) (h : e ∈ setId l k j) :
    (e ∈ l ∧ e.1 ≠ k) ∨ e = (k, j) := by
  induction l with
  | nil =>
    simp only [setId, List.mem_singleton] at h
    right; exact h
  | cons a l ih =>
    obtain ⟨ha, hn'⟩ := List.nodup_cons.mp hn
    by_cases h1 : (a.1 == k) = true
    · have hak : a.1 = k := by simpa using h1
      rw [setId, if_pos h1] at h
      rcases List.mem_cons.mp h with rfl | hm
      · right; rw [hak]
      · left
        refine ⟨List.mem_cons_of_mem _ hm, fun hek => ?_⟩
        apply ha
        rw [hak, ← hek]
        exact List.mem_map.mpr ⟨e, hm, rfl⟩
    · rw [setId, if_neg h1] at h
      rcases List.mem_cons.mp h with rfl | hm
      · left; exact ⟨List.mem_cons_self _ _, by simpa using h1⟩
      · rcases ih hn' hm with ⟨hl, hne⟩ | hj
        · left; exact ⟨List.mem_cons_of_mem _ hl, hne⟩
        · right; exact hj

lemma lookupId_mem {l : List (String × Job)} {k : String} {j : Job}
    (h : lookupId l k = some j) : (k, j) ∈ l := by
  unfold lookupId at h
  rcases hf : l.find? (fun e => e.1 == k) with _ | e
  · rw [hf] at h; exact absurd h (by simp)
  · rw [hf] at h
    have hk : e.1 = k := by simpa using List.find?_some hf
    have hj : e.2 = j := by simpa using h
    have := List.mem_of_find?_eq_some hf
    rwa [show (k, j) = e by rw [← hk, ← hj]]

lemma lookupId_eq_none_iff (l : List (String × Job)) (k : String) :
    lookupId l k = none ↔ k ∉ keysOf l := by
  unfold lookupId keysOf
  rw [Option.map_eq_none', List.find?_eq_none]
  constructor
  · intro h hc
    obtain ⟨e, he, hk⟩ := List.mem_map.mp hc
    exact h e he (by simpa using hk)
  · intro h e he hk
    exact h (List.mem_map.mpr ⟨e, he, by simpa using hk⟩)

lemma mem_lookupId {l : List (String × Job)} {k : String} {j : Job}
    (hn : (keysOf l).Nodup) (h : (k, j) ∈ l) : lookupId l k = some j := by
  induction l with
  | nil => simp at h
  | cons a l ih =>
    obtain ⟨ha, hn'⟩ := List.nodup_cons.mp hn
    rcases List.mem_cons.mp h with rfl | hm
    · exact lookupId_cons_pos (by simp)
    · by_cases h1 : (a.1 == k) = true
      · exfalso
        have hk : k ∈ keysOf l := List.mem_map.mpr ⟨(k, j), hm, rfl⟩
        have hak : a.1 = k := by simpa using h1
        rw [hak] at ha
        exact ha hk
      · rw [lookupId_cons_neg h1]
        exact ih hn' hm

lemma keysOf_filter_sublist (l : List (String × Job)) (p : (String × Job) → Bool) :
    (keysOf (l.filter p)).Sublist (keysOf l) :=
  (List.filter_sublist l).map Prod.fst

lemma lookupId_filter {l : List (String × Job)} {p : (String × Job) → Bool}
    {k : String} {j : Job} (hn : (keysOf l).Nodup)
    (h : lookupId l k = some j) (hp : p (k, j) = true) :
    lookupId (l.filter p) k = some j :=
  mem_lookupId ((keysOf_filter_sublist l p).nodup hn)
    (List.mem_filter.mpr ⟨lookupId_mem h, hp⟩)

lemma lookupId_filter_some {l : List (String × Job)} {p : (String × Job) → Bool}
    {k : String} {j : Job} (hn : (keysOf l).Nodup)
    (h : lookupId (l.filter p) k = some j) :
    lookupId l k = some j :=
  mem_lookupId hn (List.mem_filter.mp (lookupId_mem h)).1

/-- How `_load_state` treats a persisted job: one persisted as `processing`
is treated as interrupted and demoted back to `waiting` with `started_at`
cleared; every other status is kept as-is. -/
def demoteJob (j : Job) : Job :=
  if j.status = .processing then { j with status := .waiting, started_at := none }
  else j

/-- Ordering of persisted entries by `added_at`
(`loaded_requests.sort(key=lambda x: x[1]["added_at"])`). -/
def jobLe (a b : String × Job) : Prop := a.2.added_at ≤ b.2.added_at

instance : DecidableRel jobLe := fun a b =>
  inferInstanceAs (Decidable (a.2.added_at ≤ b.2.added_at))

instance : IsTotal (String × Job) jobLe := ⟨fun _ _ => Nat.le_total _ _⟩

instance : IsTrans (String × Job) jobLe := ⟨fun _ _ _ => Nat.le_trans⟩

/-- The ids `_load_state` re-admits to the pending queue: the persisted
entries sorted by `added_at`, keeping those found `waiting` or `processing`,
in order. -/
def readmitIds (file : List (String × Job)) : List String :=
  ((List.insertionSort jobLe file).filter
    (fun e => e.2.status == Status.waiting || e.2.status == Status.processing)).map
    Prod.fst

/-- The `client_requests` merge performed by `_load_state`: every persisted
entry is written over the in-memory table (demoted when persisted as
processing). -/
def mergeLoaded (acc file : List (String × Job)) : List (String × Job) :=
  file.foldl (fun a e => setId a e.1 (demoteJob e.2)) acc

/-- The queue manager state.  `requests` is `client_requests`; `pending` the
FIFO id queue (`self.queue`); `current` is `current_processing`; `file` the
persisted snapshot's `client_requests` table; `clock` the last time read
from the ambient clock.  `startedLog` / `finishedLog` are history variables
recording the `added_at` stamp of each job when the worker marks it
processing / terminal — they exist only to state ordering properties and are
written exactly where the worker writes the corresponding fields. -/
structure QMState where
  requests : List (String × Job)
  pending : List String
  current : Option String
  file : List (String × Job)
  processing_times : List Nat
  clock : Nat
  startedLog : List Nat
  finishedLog : List Nat
  deriving DecidableEq, Repr

def emptyQM (file : List (String × Job)) (t0 : Nat) : QMState :=
  ⟨[], [], none, file, [], t0, [], []⟩

/-- `_load_state`: merge the persisted table into memory (with the
processing→waiting demotion) and append the re-admitted ids, sorted by
`added_at`, to the pending queue. -/
def load_state (s : QMState) : QMState :=
  { s with
    requests := mergeLoaded s.requests s.file
    pending := s.pending ++ readmitIds s.file }

/-- Construction over a persisted table at process start time `t0`:
`__init__` starts with empty structures and runs `_load_state`. -/
def initState (file : List (String × Job)) (t0 : Nat) : QMState :=
  load_state (emptyQM file t0)

/-- The fresh `request_data` dict built by `add_to_queue`. -/
def newJob (u : String) (t : Nat) : Job :=
  ⟨u, .waiting, none, none, t, none, none⟩

/-- `add_to_queue`: insert the fresh waiting job, put its id at the tail of
the queue, save. -/
def add_to_queue (s : QMState) (id u : String) (t : Nat) : QMState :=
  { s with
    requests := setId s.requests id (newJob u t)
    pending := s.pending ++ [id]
    file := setId s.requests id (newJob u t)
    clock := t }

/-- The first half of the worker loop body (`_process_queue`): dequeue the
next id; a vanished id is skipped (`continue`); otherwise mark the job
processing, stamp `started_at`, record it as current, save. -/
def worker_start (s : QMState) (t : Nat) : QMState :=
  match s.pending with
  | [] => s
  | id :: rest =>
    match lookupId s.requests id with
    | none => { s with pending := rest }
    | some j =>
      { s with
        requests := setId s.requests id { j with status := .processing, started_at := some t }
        pending := rest
        current := some id
        file := setId s.requests id { j with status := .processing, started_at := some t }
        clock := t
        startedLog := s.startedLog ++ [j.added_at] }

/-- The second half of the worker loop body: `_process_request` writes the
terminal status/result/error (when the id still exists), then the loop
stamps `completed_at`, records the duration (window capped at 20), clears
`current_processing`, saves. -/
def worker_finish (s : QMState) (t : Nat) (outcome : Except String String) : QMState :=
  match s.current with
  | none => s
  | some id =>
    match lookupId s.requests id with
    | none => { s with current := none, file := s.requests, clock := t }
    | some j =>
      let j2 : Job :=
        match outcome with
        | .ok m =>
          { j with status := .completed, result := some m, completed_at := some t }
        | .error e =>
          { j with status := Status.error, error := some e, completed_at := some t }
      let pts := s.processing_times ++ [t - j.started_at.getD 0]
      { s with
        requests := setId s.requests id j2
        current := none
        processing_times := if pts.length > 20 then pts.drop 1 else pts
        file := setId s.requests id j2
        clock := t
        finishedLog := s.finishedLog ++ [j.added_at] }

/-- Is this entry deleted by `_cleanup_old_requests` at time `t`? -/
def reapable (t : Nat) (e : String × Job) : Bool :=
  (e.2.status == Status.completed || e.2.status == Status.error) &&
    (match e.2.completed_at with
     | some c => decide (t - c > 600)
     | none => false)

/-- `_cleanup_old_requests`: delete terminal entries completed more than 600
seconds ago; save only when something was removed. -/
def cleanup_old_requests (s : QMState) (t : Nat) : QMState :=
  let keep := s.requests.filter (fun e => !reapable t e)
  { s with
    requests := keep
    file := if keep.length = s.requests.length then s.file else keep
    clock := t }

/-- `get_status`: an id found in memory is only read; an unknown id triggers
a best-effort `_load_state` reload before answering.  Only the state effect
is modelled; the returned snapshot is a pure read of the resulting state. -/
def get_status (s : QMState) (id : String) : QMState :=
  match lookupId s.requests id with
  | some _ => s
  | none => load_state s

/-- One atomic operation of the queue manager (each is one lock-protected
region of the source, with its synchronous save).  Every step observes a
clock value no earlier than the last one. -/
inductive QStep : QMState → QMState → Prop where
  | enqueue {s : QMState} (id u : String) (t : Nat) (ht : s.clock ≤ t)
      (hid : lookupId s.requests id = none) : QStep s (add_to_queue s id u t)
  | start {s : QMState} (t : Nat) (ht : s.clock ≤ t) (hc : s.current = none) :
      QStep s (worker_start s t)
  | finish {s : QMState} (t : Nat) (outcome : Except String String)
      (ht : s.clock ≤ t) (hc : s.current.isSome) :
      QStep s (worker_finish s t outcome)
  | reap {s : QMState} (t : Nat) (ht : s.clock ≤ t) :
      QStep s (cleanup_old_requests s t)
  | status_read {s : QMState} (id : String) : QStep s (get_status s id)

/-- Reachability from construction over any persisted table (keys unique,
as in a JSON object; persisted stamps are no later than the boot clock). -/
inductive QReach : QMState → Prop where
  | boot (file : List (String × Job)) (t0 : Nat)
      (hk : (keysOf file).Nodup)
      (ht : ∀ e ∈ file, e.2.added_at ≤ t0) : QReach (initState file t0)
  | step {s s' : QMState} : QReach s → QStep s s' → QReach s'

/-- The reload-free fragment: every operation except the `_load_state`
reload (`get_status` is included only on ids present in memory, where it
leaves the state unchanged). -/
inductive NStep : QMState → QMState → Prop where
  | enqueue {s : QMState} (id u : String) (t : Nat) (ht : s.clock ≤ t)
      (hid : lookupId s.requests id = none) : NStep s (add_to_queue s id u t)
  | start {s : QMState} (t : Nat) (ht : s.clock ≤ t) (hc : s.current = none) :
      NStep s (worker_start s t)
  | finish {s : QMState} (t : Nat) (outcome : Except String String)
      (ht : s.clock ≤ t) (hc : s.current.isSome) :
      NStep s (worker_finish s t outcome)
  | reap {s : QMState} (t : Nat) (ht : s.clock ≤ t) :
      NStep s (cleanup_old_requests s t)
  | status_read {s : QMState} (id : String)
      (h : (lookupId s.requests id).isSome) : NStep s (get_status s id)

inductive NReach : QMState → Prop where
  | boot (file : List (String × Job)) (t0 : Nat)
      (hk : (keysOf file).Nodup)
      (ht : ∀ e ∈ file, e.2.added_at ≤ t0) : NReach (initState file t0)
  | step {s s' : QMState} : NReach s → NStep s s' → NReach s'

lemma NStep.toQStep {s s' : QMState} (h : NStep s s') : QStep s s' := by
  cases h with
  | enqueue id u t ht hid => exact QStep.enqueue id u t ht hid
  | start t ht hc => exact QStep.start t ht hc
  | finish t outcome ht hc => exact QStep.finish t outcome ht hc
  | reap t ht => exact QStep.reap t ht
  | status_read id h => exact QStep.status_read id

lemma NReach.toQReach {s : QMState} (h : NReach s) : QReach s := by
  induction h with
  | boot file t0 hk ht => exact QReach.boot file t0 hk ht
  | step _ hstep ih => exact QReach.step ih hstep.toQStep

/-- The number of table entries with status `processing`. -/
def procCount (s : QMState) : Nat :=
  (s.requests.filter (fun e => e.2.status == Status.processing)).length

/-! ## C1: the single-worker invariant -/

/-- The inductive invariant behind C1: keys are unique and every processing
entry is the one the worker currently owns. -/
def ProcOwned (s : QMState) : Prop :=
  (keysOf s.requests).Nodup ∧
  ∀ e ∈ s.requests, e.2.status = Status.processing → s.current = some e.1

lemma nodupKeys_mergeLoaded (file : List (String × Job))
    (acc : List (String × Job)) (h : (keysOf acc).Nodup) :
    (keysOf (mergeLoaded acc file)).Nodup := by
  induction file generalizing acc with
  | nil => exact h
  | cons e l ih => exact ih _ (nodupKeys_setId _ _ _ h)

lemma mem_mergeLoaded {e' : String × Job} (file : List (String × Job))
    (acc : List (String × Job)) (h : e' ∈ mergeLoaded acc file) :
    e' ∈ acc ∨ ∃ e ∈ file, e'.2 = demoteJob e.2 := by
  induction file generalizing acc with
  | nil => exact Or.inl h
  | cons e l ih =>
    rcases ih _ h with hin | ⟨e0, he0, hd⟩
    · rcases mem_setId hin with hacc | hnew
      · exact Or.inl hacc
      · exact Or.inr ⟨e, List.mem_cons_self _ _, by rw [hnew]⟩
    · exact Or.inr ⟨e0, List.mem_cons_of_mem _ he0, hd⟩

lemma demoteJob_not_processing (j : Job) :
    (demoteJob j).status ≠ Status.processing := by
  by_cases h : j.status = .processing
  · rw [demoteJob, if_pos h]; simp
  · rw [demoteJob, if_neg h]; exact h

lemma procOwned_load (s : QMState) (h : ProcOwned s) : ProcOwned (load_state s) := by
  constructor
  · exact nodupKeys_mergeLoaded s.file s.requests h.1
  · intro e he hp
    rcases mem_mergeLoaded s.file s.requests he with hin | ⟨e0, _, hd⟩
    · exact h.2 e hin hp
    · rw [hd] at hp
      exact absurd hp (demoteJob_not_processing e0.2)

lemma procOwned_init (file : List (String × Job)) (t0 : Nat) :
    ProcOwned (initState file t0) := by
  refine procOwned_load (emptyQM file t0) ⟨?_, ?_⟩
  · simp [keysOf, emptyQM]
  · intro e he
    simp [emptyQM] at he

lemma procOwned_step {s s' : QMState} (h : ProcOwned s) (hs : QStep s s') :
    ProcOwned s' := by
  cases hs with
  | enqueue id u t ht hid =>
    constructor
    · exact nodupKeys_setId _ _ _ h.1
    · intro e he hp
      rcases mem_setId he with hin | hnew
      · exact h.2 e hin hp
      · rw [hnew] at hp
        exact absurd hp (by simp [newJob])
  | start t ht hc =>
    rcases hp : s.pending with _ | ⟨id, rest⟩
    · simp only [worker_start, hp]; exact h
    · rcases hl : lookupId s.requests id with _ | j
      · simp only [worker_start, hp, hl]
        exact ⟨h.1, fun e he hpe => h.2 e he hpe⟩
      · simp only [worker_start, hp, hl]
        constructor
        · exact nodupKeys_setId _ _ _ h.1
        · intro e he hpe
          rcases mem_setId he with hin | hnew
          · have := h.2 e hin hpe
            rw [hc] at this
            exact absurd this (by simp)
          · rw [hnew]
  | finish t outcome ht hc =>
    rcases hcur : s.current with _ | id
    · simp only [worker_finish, hcur]; exact h
    · rcases hl : lookupId s.requests id with _ | j
      · simp only [worker_finish, hcur, hl]
        refine ⟨h.1, fun e he hpe => ?_⟩
        exfalso
        have h1 := h.2 e he hpe
        rw [hcur] at h1
        have hek : e.1 = id := (Option.some.inj h1).symm
        have hsome : lookupId s.requests e.1 ≠ none := by
          rw [mem_lookupId h.1 (show (e.1, e.2) ∈ s.requests from he)]
          simp
        rw [hek, hl] at hsome
        exact hsome rfl
      · simp only [worker_finish, hcur, hl]
        refine ⟨nodupKeys_setId _ _ _ h.1, fun e he hpe => ?_⟩
        exfalso
        rcases mem_setId_nodup h.1 he with ⟨hin, hne⟩ | hnew
        · have h1 := h.2 e hin hpe
          rw [hcur] at h1
          exact hne (Option.some.inj h1).symm
        · rw [hnew] at hpe
          rcases outcome with e0 | m <;> simp at hpe
  | reap t ht =>
    refine ⟨((keysOf_filter_sublist _ _).nodup h.1), fun e he hpe => ?_⟩
    exact h.2 e (List.mem_filter.mp he).1 hpe
  | status_read id =>
    rcases hl : lookupId s.requests id with _ | j
    · simp only [get_status, hl]; exact procOwned_load s h
    · simp only [get_status, hl]; exact h

lemma filter_proc_len (l : List (String × Job)) (c : String)
    (hn : (keysOf l).Nodup)
    (h : ∀ e ∈ l, (e.2.status == Status.processing) = true → e.1 = c) :
    (l.filter (fun e => e.2.status == Status.processing)).length ≤ 1 := by
  induction l with
  | nil => simp
  | cons a l ih =>
    obtain ⟨ha, hn'⟩ := List.nodup_cons.mp hn
    by_cases hp : (a.2.status == Status.processing) = true
    · rw [@List.filter_cons_of_pos _ (fun e => e.2.status == Status.processing) a l hp]
      have hnil : l.filter (fun e => e.2.status == Status.processing) = [] := by
        rw [List.filter_eq_nil_iff]
        intro e he hpe
        have h1 : e.1 = c := h e (List.mem_cons_of_mem _ he) hpe
        have h2 : a.1 = c := h a (List.mem_cons_self _ _) hp
        apply ha
        rw [h2, ← h1]
        exact List.mem_map.mpr ⟨e, he, rfl⟩
      rw [hnil]
      simp
    · rw [@List.filter_cons_of_neg _ (fun e => e.2.status == Status.processing) a l hp]
      exact ih hn' (fun e he hpe => h e (List.mem_cons_of_mem _ he) hpe)

/-- C1: in queued mode, in every state reachable from construction under the
queue manager's operations (enqueue, worker steps, status reads, state
reloads and the reaper), at most one entry of the job table has
status=processing. -/
theorem at_most_one_processing (s : QMState) (h : QReach s) : procCount s ≤ 1 := by
  have hinv : ProcOwned s := by
    induction h with
    | boot file t0 hk ht => exact procOwned_init file t0
    | step _ hstep ih => exact procOwned_step ih hstep
  unfold procCount
  rcases hc : s.current with _ | c
  · have hnil : s.requests.filter (fun e => e.2.status == Status.processing) = [] := by
      rw [List.filter_eq_nil_iff]
      intro e he hpe
      have h1 := hinv.2 e he (by simpa using hpe)
      rw [hc] at h1
      exact absurd h1 (by simp)
    rw [hnil]
    simp
  · refine filter_proc_len s.requests c hinv.1 (fun e he hpe => ?_)
    have h1 := hinv.2 e he (by simpa using hpe)
    rw [hc] at h1
    exact (Option.some.inj h1).symm

/-- C1 witness: a concrete reachable state in which the worker has just
taken a job into processing — the bound is met there. -/
theorem at_most_one_processing_w :
    procCount (worker_start (add_to_queue (initState [] 0) "j1" "alice" 1) 2) ≤ 1 ∧
    procCount (worker_start (add_to_queue (initState [] 0) "j1" "alice" 1) 2) = 1 := by
  have h0 : QReach (initState [] 0) := QReach.boot [] 0 (by simp [keysOf]) (by simp)
  have h1 : QReach (add_to_queue (initState [] 0) "j1" "alice" 1) :=
    QReach.step h0 (QStep.enqueue "j1" "alice" 1 (by decide) (by decide))
  have h2 : QReach (worker_start (add_to_queue (initState [] 0) "j1" "alice" 1) 2) :=
    QReach.step h1 (QStep.start 2 (by decide) (by decide))
  exact ⟨at_most_one_processing _ h2, by decide⟩

/-! ## C3: startup recovery -/

lemma demoteJob_added_at (j : Job) : (demoteJob j).added_at = j.added_at := by
  unfold demoteJob; split <;> rfl

lemma demoteJob_of_processing {j : Job} (h : j.status = .processing) :
    demoteJob j = { j with status := .waiting, started_at := none } := by
  rw [demoteJob, if_pos h]

lemma demoteJob_status_waiting {j : Job}
    (h : j.status = .waiting ∨ j.status = .processing) :
    (demoteJob j).status = .waiting := by
  rcases h with h | h
  · rw [demoteJob, if_neg (by rw [h]; simp), h]
  · rw [demoteJob_of_processing h]

lemma lookupId_mergeLoaded_notin (file : List (String × Job))
    (acc : List (String × Job)) (k : String) (h : k ∉ keysOf file) :
    lookupId (mergeLoaded acc file) k = lookupId acc k := by
  induction file generalizing acc with
  | nil => rfl
  | cons e l ih =>
    have hke : k ≠ e.1 := fun hc => h (List.mem_cons.mpr (Or.inl hc))
    have hkl : k ∉ keysOf l := fun hc => h (List.mem_cons.mpr (Or.inr hc))
    show lookupId (mergeLoaded (setId acc e.1 (demoteJob e.2)) l) k = _
    rw [ih _ hkl, lookupId_setId_ne _ _ _ _ hke]

lemma lookupId_mergeLoaded {file : List (String × Job)} {k : String} {j : Job}
    (acc : List (String × Job)) (hn : (keysOf file).Nodup) (hm : (k, j) ∈ file) :
    lookupId (mergeLoaded acc file) k = some (demoteJob j) := by
  induction file generalizing acc with
  | nil => simp at hm
  | cons e l ih =>
    obtain ⟨he, hn'⟩ := List.nodup_cons.mp hn
    rcases List.mem_cons.mp hm with heq | hm'
    · have hk : k = e.1 := by rw [← heq]
      have hj : j = e.2 := by rw [← heq]
      subst hk
      subst hj
      show lookupId (mergeLoaded (setId acc e.1 (demoteJob e.2)) l) e.1 = _
      rw [lookupId_mergeLoaded_notin l _ e.1 he]
      exact lookupId_setId_self _ _ _
    · exact ih _ hn' hm'

/-- The filter `_load_state` applies when re-admitting persisted jobs. -/
def readmitP (e : String × Job) : Bool :=
  e.2.status == Status.waiting || e.2.status == Status.processing

lemma readmitIds_eq (file : List (String × Job)) :
    readmitIds file = (((List.insertionSort jobLe file).filter readmitP).map Prod.fst) := rfl

lemma mem_readmitIds (file : List (String × Job)) (k : String) :
    k ∈ readmitIds file ↔
      ∃ j, (k, j) ∈ file ∧ (j.status = .waiting ∨ j.status = .processing) := by
  rw [readmitIds_eq]
  constructor
  · intro h
    obtain ⟨e, he, hk⟩ := List.mem_map.mp h
    obtain ⟨hs, hp⟩ := List.mem_filter.mp he
    refine ⟨e.2, ?_, ?_⟩
    · have : e ∈ file := (List.perm_insertionSort jobLe file).mem_iff.mp hs
      rwa [show (k, e.2) = e from by rw [← hk]]
    · simpa [readmitP] using hp
  · rintro ⟨j, hm, hs⟩
    refine List.mem_map.mpr ⟨(k, j), List.mem_filter.mpr ⟨?_, ?_⟩, rfl⟩
    · exact (List.perm_insertionSort jobLe file).mem_iff.mpr hm
    · simpa [readmitP] using hs

lemma readmitIds_nodup (file : List (String × Job))
    (hn : (keysOf file).Nodup) : (readmitIds file).Nodup := by
  rw [readmitIds_eq]
  have hperm : List.Perm ((List.insertionSort jobLe file).map Prod.fst) (keysOf file) :=
    (List.perm_insertionSort jobLe file).map Prod.fst
  have hsortn : ((List.insertionSort jobLe file).map Prod.fst).Nodup :=
    hperm.nodup_iff.mpr hn
  exact (((List.filter_sublist _).map Prod.fst).nodup hsortn)

lemma filterMap_congr_map {α β : Type} {l : List α} (f : α → Option β) (g : α → β)
    (h : ∀ a ∈ l, f a = some (g a)) : l.filterMap f = l.map g := by
  induction l with
  | nil => rfl
  | cons a l ih =>
    rw [List.filterMap_cons, h a (List.mem_cons_self _ _), List.map_cons,
      ih (fun x hx => h x (List.mem_cons_of_mem _ hx))]

/-- The `added_at` stamps of the pending queue, in queue order. -/
def pendingAA (s : QMState) : List Nat :=
  s.pending.filterMap (fun k => (lookupId s.requests k).map (fun j => j.added_at))

lemma pendingAA_init (file : List (String × Job)) (t0 : Nat)
    (hn : (keysOf file).Nodup) :
    pendingAA (initState file t0)
      = ((List.insertionSort jobLe file).filter readmitP).map
          (fun e => e.2.added_at) := by
  unfold pendingAA
  have hpend : (initState file t0).pending
      = ((List.insertionSort jobLe file).filter readmitP).map Prod.fst := rfl
  have hreq : (initState file t0).requests = mergeLoaded [] file := rfl
  rw [hpend, hreq, List.filterMap_map]
  refine filterMap_congr_map _ _ ?_
  intro e he
  have hef : e ∈ file :=
    (List.perm_insertionSort jobLe file).mem_iff.mp (List.mem_filter.mp he).1
  have : lookupId (mergeLoaded [] file) e.1 = some (demoteJob e.2) :=
    lookupId_mergeLoaded [] hn (by rwa [show (e.1, e.2) = e from rfl])
  simp only [Function.comp]
  rw [this]
  simp [demoteJob_added_at]

lemma pendingAA_init_sorted (file : List (String × Job)) (t0 : Nat)
    (hn : (keysOf file).Nodup) :
    List.Pairwise (· ≤ ·) (pendingAA (initState file t0)) := by
  rw [pendingAA_init file t0 hn]
  rw [List.pairwise_map]
  have hsorted : List.Pairwise jobLe (List.insertionSort jobLe file) :=
    List.sorted_insertionSort jobLe file
  exact hsorted.filter readmitP

/-- C3: startup recovery.  For every persisted table with unique ids:
(i) every persisted job is found in memory after construction (demoted when
persisted as processing) — no job is lost; (ii) a job persisted as
processing is demoted to waiting with `started_at` cleared; (iii) a job id
is re-admitted to the pending queue iff it was persisted waiting or
processing; (iv) no id is admitted more than once; (v) the pending queue is
in non-decreasing original `added_at` order. -/
theorem startup_recovery (file : List (String × Job)) (t0 : Nat)
    (hn : (keysOf file).Nodup) :
    (∀ k j, (k, j) ∈ file →
      lookupId (initState file t0).requests k = some (demoteJob j)) ∧
    (∀ k j, (k, j) ∈ file → j.status = .processing →
      lookupId (initState file t0).requests k
        = some { j with status := .waiting, started_at := none }) ∧
    (∀ k, k ∈ (initState file t0).pending ↔
      ∃ j, (k, j) ∈ file ∧ (j.status = .waiting ∨ j.status = .processing)) ∧
    (initState file t0).pending.Nodup ∧
    List.Pairwise (· ≤ ·) (pendingAA (initState file t0)) := by
  refine ⟨fun k j hm => lookupId_mergeLoaded [] hn hm,
    fun k j hm hp => ?_, fun k => mem_readmitIds file k, readmitIds_nodup file hn,
    pendingAA_init_sorted file t0 hn⟩
  rw [show lookupId (initState file t0).requests k = lookupId (mergeLoaded [] file) k from rfl,
    lookupId_mergeLoaded [] hn hm, demoteJob_of_processing hp]

/-- C3 witness: a concrete three-job table — "c" completed (kept, not
re-queued), "b" interrupted while processing (demoted, `started_at`
cleared), "a" waiting — is recovered with pending order b (added 1) before a
(added 2), each admitted once. -/
theorem startup_recovery_w :
    lookupId (initState
        [("a", ⟨"ua", .waiting, none, none, 2, none, none⟩),
         ("b", ⟨"ub", .processing, none, none, 1, some 3, none⟩),
         ("c", ⟨"uc", .completed, some "m", none, 0, some 1, some 2⟩)] 9).requests "b"
      = some ⟨"ub", .waiting, none, none, 1, none, none⟩ ∧
    ("b" ∈ (initState
        [("a", ⟨"ua", .waiting, none, none, 2, none, none⟩),
         ("b", ⟨"ub", .processing, none, none, 1, some 3, none⟩),
         ("c", ⟨"uc", .completed, some "m", none, 0, some 1, some 2⟩)] 9).pending) ∧
    (initState
        [("a", ⟨"ua", .waiting, none, none, 2, none, none⟩),
         ("b", ⟨"ub", .processing, none, none, 1, some 3, none⟩),
         ("c", ⟨"uc", .completed, some "m", none, 0, some 1, some 2⟩)] 9).pending.Nodup ∧
    List.Pairwise (· ≤ ·) (pendingAA (initState
        [("a", ⟨"ua", .waiting, none, none, 2, none, none⟩),
         ("b", ⟨"ub", .processing, none, none, 1, some 3, none⟩),
         ("c", ⟨"uc", .completed, some "m", none, 0, some 1, some 2⟩)] 9)) := by
  have h := startup_recovery
    [("a", ⟨"ua", .waiting, none, none, 2, none, none⟩),
     ("b", ⟨"ub", .processing, none, none, 1, some 3, none⟩),
     ("c", ⟨"uc", .completed, some "m", none, 0, some 1, some 2⟩)] 9 (by decide)
  refine ⟨?_, ?_, h.2.2.2.1, h.2.2.2.2⟩
  · exact h.2.1 "b" ⟨"ub", .processing, none, none, 1, some 3, none⟩ (by decide) rfl
  · exact (h.2.2.1 "b").mpr ⟨⟨"ub", .processing, none, none, 1, some 3, none⟩,
      by decide, Or.inr rfl⟩

/-! ## C2 and C4: FIFO processing order and status monotonicity -/

/-- The `added_at` stamp of the job the worker currently owns, as a
(0- or 1-element) list. -/
def currentAAOf (cur : Option String) (rs : List (String × Job)) : List Nat :=
  match cur with
  | none => []
  | some k =>
    match lookupId rs k with
    | none => []
    | some j => [j.added_at]

def pendingAAOf (pend : List String) (rs : List (String × Job)) : List Nat :=
  pend.filterMap (fun k => (lookupId rs k).map (fun j => j.added_at))

lemma pendingAA_eq (s : QMState) : pendingAA s = pendingAAOf s.pending s.requests := rfl

/-- The full schedule: `added_at` stamps of finished jobs, then the current
job, then the pending queue. -/
def schedList (s : QMState) : List Nat :=
  s.finishedLog ++ (currentAAOf s.current s.requests ++ pendingAA s)

/-- The inductive invariant of the reload-free machine, supporting FIFO
order (C2) and status monotonicity (C4). -/
structure InvF (s : QMState) : Prop where
  nodupKeys : (keysOf s.requests).Nodup
  pendingNodup : s.pending.Nodup
  pendingWaiting : ∀ k ∈ s.pending,
    ∃ j, lookupId s.requests k = some j ∧ j.status = Status.waiting
  currentProc : ∀ k, s.current = some k →
    ∃ j, lookupId s.requests k = some j ∧ j.status = Status.processing
  currentNotPending : ∀ k, s.current = some k → k ∉ s.pending
  schedSorted : List.Pairwise (· ≤ ·) (schedList s)
  schedClock : ∀ a ∈ schedList s, a ≤ s.clock
  startedEq : s.startedLog = s.finishedLog ++ currentAAOf s.current s.requests

lemma filterMap_congr' {α β : Type} {l : List α} {f g : α → Option β}
    (h : ∀ a ∈ l, f a = g a) : l.filterMap f = l.filterMap g := by
  induction l with
  | nil => rfl
  | cons a l ih =>
    rw [List.filterMap_cons, List.filterMap_cons, h a (List.mem_cons_self _ _),
      ih (fun x hx => h x (List.mem_cons_of_mem _ hx))]

lemma pendingAAOf_congr {pend : List String} {rs rs' : List (String × Job)}
    (h : ∀ k ∈ pend, lookupId rs' k = lookupId rs k) :
    pendingAAOf pend rs' = pendingAAOf pend rs :=
  filterMap_congr' (fun k hk => by rw [h k hk])

lemma currentAAOf_congr {cur : Option String} {rs rs' : List (String × Job)}
    (h : ∀ c, cur = some c → lookupId rs' c = lookupId rs c) :
    currentAAOf cur rs' = currentAAOf cur rs := by
  rcases cur with _ | c
  · rfl
  · show (match lookupId rs' c with
      | none => ([] : List Nat)
      | some j => [j.added_at])
      = (match lookupId rs c with
      | none => []
      | some j => [j.added_at])
    rw [h c rfl]

lemma pendingAAOf_append (p1 p2 : List String) (rs : List (String × Job)) :
    pendingAAOf (p1 ++ p2) rs = pendingAAOf p1 rs ++ pendingAAOf p2 rs :=
  List.filterMap_append _ _ _

lemma invF_init (file : List (String × Job)) (t0 : Nat)
    (hk : (keysOf file).Nodup) (ht : ∀ e ∈ file, e.2.added_at ≤ t0) :
    InvF (initState file t0) := by
  have hcur : (initState file t0).current = none := rfl
  have hfin : (initState file t0).finishedLog = [] := rfl
  have hstart : (initState file t0).startedLog = [] := rfl
  have hclock : (initState file t0).clock = t0 := rfl
  have hsched : schedList (initState file t0) = pendingAA (initState file t0) := by
    unfold schedList
    rw [hcur, hfin]
    rfl
  refine ⟨nodupKeys_mergeLoaded file [] (by simp [keysOf]),
    readmitIds_nodup file hk, ?_, ?_, ?_, ?_, ?_, ?_⟩
  · intro k hkp
    obtain ⟨j, hm, hs⟩ := (mem_readmitIds file k).mp hkp
    exact ⟨demoteJob j, lookupId_mergeLoaded [] hk hm, demoteJob_status_waiting hs⟩
  · intro k hc
    rw [hcur] at hc
    cases hc
  · intro k hc
    rw [hcur] at hc
    cases hc
  · rw [hsched]
    exact pendingAA_init_sorted file t0 hk
  · intro a ha
    rw [hsched, pendingAA_init file t0 hk] at ha
    obtain ⟨e, he, hea⟩ := List.mem_map.mp ha
    have hef : e ∈ file :=
      (List.perm_insertionSort jobLe file).mem_iff.mp (List.mem_filter.mp he).1
    rw [hclock, ← hea]
    exact ht e hef
  · rw [hstart, hfin, hcur]
    rfl

lemma get_status_found {s : QMState} {id : String}
    (hs : (lookupId s.requests id).isSome) : get_status s id = s := by
  rcases hl : lookupId s.requests id with _ | j
  · rw [hl] at hs; cases hs
  · simp only [get_status, hl]

lemma invF_enqueue {s : QMState} (id u : String) (t : Nat) (h : InvF s)
    (ht : s.clock ≤ t) (hid : lookupId s.requests id = none) :
    InvF (add_to_queue s id u t) := by
  have hidp : id ∉ s.pending := by
    intro hc
    obtain ⟨j, hj, _⟩ := h.pendingWaiting id hc
    rw [hid] at hj
    cases hj
  have hlookp : ∀ k ∈ s.pending,
      lookupId (setId s.requests id (newJob u t)) k = lookupId s.requests k := by
    intro k hk
    refine lookupId_setId_ne _ _ _ _ (fun hc => hidp ?_)
    rw [← hc]
    exact hk
  have hcurne : ∀ c, s.current = some c →
      lookupId (setId s.requests id (newJob u t)) c = lookupId s.requests c := by
    intro c hc
    obtain ⟨j, hj, _⟩ := h.currentProc c hc
    refine lookupId_setId_ne _ _ _ _ (fun hceq => ?_)
    rw [hceq, hid] at hj
    cases hj
  have hpend' : pendingAAOf (s.pending ++ [id]) (setId s.requests id (newJob u t))
      = pendingAA s ++ [t] := by
    rw [pendingAAOf_append, pendingAAOf_congr hlookp, ← pendingAA_eq]
    congr 1
    show List.filterMap _ [id] = [t]
    rw [show ([id] : List String) = id :: [] from rfl, List.filterMap_cons,
      lookupId_setId_self]
    rfl
  have hcur' : currentAAOf s.current (setId s.requests id (newJob u t))
      = currentAAOf s.current s.requests := currentAAOf_congr hcurne
  have hsched' : schedList (add_to_queue s id u t) = schedList s ++ [t] := by
    show s.finishedLog ++ (currentAAOf s.current (setId s.requests id (newJob u t)) ++
        pendingAAOf (s.pending ++ [id]) (setId s.requests id (newJob u t)))
      = (s.finishedLog ++ (currentAAOf s.current s.requests ++ pendingAA s)) ++ [t]
    rw [hcur', hpend']
    simp [List.append_assoc]
  refine ⟨nodupKeys_setId _ _ _ h.nodupKeys, ?_, ?_, ?_, ?_, ?_, ?_, ?_⟩
  · refine h.pendingNodup.append (List.nodup_singleton id) ?_
    intro a ha hb
    rw [List.mem_singleton] at hb
    subst hb
    exact hidp ha
  · intro k hk
    have hk0 : k ∈ s.pending ++ [id] := hk
    rcases List.mem_append.mp hk0 with hk1 | hk2
    · obtain ⟨j, hj, hw⟩ := h.pendingWaiting k hk1
      refine ⟨j, ?_, hw⟩
      show lookupId (setId s.requests id (newJob u t)) k = some j
      rw [hlookp k hk1]
      exact hj
    · rw [List.mem_singleton] at hk2
      refine ⟨newJob u t, ?_, rfl⟩
      show lookupId (setId s.requests id (newJob u t)) k = some (newJob u t)
      rw [hk2]
      exact lookupId_setId_self _ _ _
  · intro c hc
    have hc0 : s.current = some c := hc
    obtain ⟨j, hj, hp⟩ := h.currentProc c hc0
    refine ⟨j, ?_, hp⟩
    show lookupId (setId s.requests id (newJob u t)) c = some j
    rw [hcurne c hc0]
    exact hj
  · intro c hc hmem
    have hc0 : s.current = some c := hc
    have hmem0 : c ∈ s.pending ++ [id] := hmem
    rcases List.mem_append.mp hmem0 with h1 | h2
    · exact h.currentNotPending c hc0 h1
    · rw [List.mem_singleton] at h2
      obtain ⟨j, hj, _⟩ := h.currentProc c hc0
      rw [h2, hid] at hj
      cases hj
  · rw [hsched', List.pairwise_append]
    refine ⟨h.schedSorted, List.pairwise_singleton _ _, ?_⟩
    intro a ha b hb
    rw [List.mem_singleton] at hb
    rw [hb]
    exact le_trans (h.schedClock a ha) ht
  · intro a ha
    rw [hsched'] at ha
    show a ≤ t
    rcases List.mem_append.mp ha with h1 | h2
    · exact le_trans (h.schedClock a h1) ht
    · rw [List.mem_singleton] at h2
      exact h2.le
  · show s.startedLog
      = s.finishedLog ++ currentAAOf s.current (setId s.requests id (newJob u t))
    rw [hcur']
    exact h.startedEq

lemma invF_start {s : QMState} (t : Nat) (h : InvF s) (ht : s.clock ≤ t)
    (hc : s.current = none) : InvF (worker_start s t) := by
  rcases hp : s.pending with _ | ⟨id, rest⟩
  · simp only [worker_start, hp]; exact h
  · have hidp : id ∈ s.pending := by rw [hp]; exact List.mem_cons_self _ _
    obtain ⟨j0, hj0, hw0⟩ := h.pendingWaiting id hidp
    rcases hl : lookupId s.requests id with _ | j
    · rw [hj0] at hl; cases hl
    · have hjj : j0 = j := by rw [hj0] at hl; exact Option.some.inj hl
      subst hjj
      simp only [worker_start, hp, hl]
      have hnodup := h.pendingNodup
      rw [hp] at hnodup
      obtain ⟨hidrest, hrestnodup⟩ := List.nodup_cons.mp hnodup
      have hlookr : ∀ k ∈ rest,
          lookupId (setId s.requests id { j0 with status := .processing, started_at := some t }) k
            = lookupId s.requests k := by
        intro k hk
        refine lookupId_setId_ne _ _ _ _ (fun hceq => hidrest ?_)
        rw [← hceq]
        exact hk
      have hpendnew :
          pendingAAOf rest (setId s.requests id { j0 with status := .processing, started_at := some t })
            = pendingAAOf rest s.requests := pendingAAOf_congr hlookr
      have hpendold : pendingAA s = j0.added_at :: pendingAAOf rest s.requests := by
        rw [pendingAA_eq, hp]
        show List.filterMap _ (id :: rest) = _
        rw [List.filterMap_cons, hl]
        rfl
      have hcurnew :
          currentAAOf (some id) (setId s.requests id { j0 with status := .processing, started_at := some t })
            = [j0.added_at] := by
        show (match lookupId (setId s.requests id { j0 with status := .processing, started_at := some t }) id with
          | none => ([] : List Nat)
          | some j' => [j'.added_at]) = [j0.added_at]
        rw [lookupId_setId_self]
      have hcurold : currentAAOf s.current s.requests = [] := by
        rw [hc]; rfl
      have hscheq :
          s.finishedLog ++ ([j0.added_at] ++ pendingAAOf rest s.requests) = schedList s := by
        unfold schedList
        rw [hcurold, hpendold]
        rfl
      refine ⟨nodupKeys_setId _ _ _ h.nodupKeys, hrestnodup, ?_, ?_, ?_, ?_, ?_, ?_⟩
      · intro k hk
        have hks : k ∈ s.pending := by rw [hp]; exact List.mem_cons_of_mem _ hk
        obtain ⟨j', hj', hw'⟩ := h.pendingWaiting k hks
        exact ⟨j', by rw [hlookr k hk]; exact hj', hw'⟩
      · intro c hcc
        have hcid : c = id := (Option.some.inj hcc).symm
        subst hcid
        exact ⟨{ j0 with status := .processing, started_at := some t },
          lookupId_setId_self _ _ _, rfl⟩
      · intro c hcc
        have hcid : c = id := (Option.some.inj hcc).symm
        subst hcid
        exact hidrest
      · show List.Pairwise (· ≤ ·) (s.finishedLog ++
          (currentAAOf (some id) (setId s.requests id { j0 with status := .processing, started_at := some t }) ++
            pendingAAOf rest (setId s.requests id { j0 with status := .processing, started_at := some t })))
        rw [hcurnew, hpendnew, hscheq]
        exact h.schedSorted
      · intro a ha
        show a ≤ t
        have ha' : a ∈ s.finishedLog ++
            (currentAAOf (some id) (setId s.requests id { j0 with status := .processing, started_at := some t }) ++
              pendingAAOf rest (setId s.requests id { j0 with status := .processing, started_at := some t })) := ha
        rw [hcurnew, hpendnew, hscheq] at ha'
        exact le_trans (h.schedClock a ha') ht
      · show s.startedLog ++ [j0.added_at]
          = s.finishedLog ++ currentAAOf (some id)
              (setId s.requests id { j0 with status := .processing, started_at := some t })
        rw [hcurnew, h.startedEq, hcurold]
        simp

lemma invF_finish_aux {s : QMState} (t : Nat) (id : String) (j j2 : Job)
    (pts' : List Nat) (h : InvF s) (ht : s.clock ≤ t)
    (hcur : s.current = some id) (hl : lookupId s.requests id = some j) :
    InvF
      { s with
          requests := setId s.requests id j2,
          current := none,
          processing_times := pts',
          file := setId s.requests id j2,
          clock := t,
          finishedLog := s.finishedLog ++ [j.added_at] } := by
  have hidnp : id ∉ s.pending := h.currentNotPending id hcur
  have hlookp : ∀ k ∈ s.pending,
      lookupId (setId s.requests id j2) k = lookupId s.requests k := by
    intro k hk
    refine lookupId_setId_ne _ _ _ _ (fun hceq => hidnp ?_)
    rw [← hceq]
    exact hk
  have hcurold : currentAAOf s.current s.requests = [j.added_at] := by
    rw [hcur]
    show (match lookupId s.requests id with
      | none => ([] : List Nat)
      | some j' => [j'.added_at]) = _
    rw [hl]
  have hpendnew : pendingAAOf s.pending (setId s.requests id j2) = pendingAA s := by
    rw [pendingAAOf_congr hlookp, ← pendingAA_eq]
  have hscheq : (s.finishedLog ++ [j.added_at]) ++ ([] ++ pendingAA s) = schedList s := by
    unfold schedList
    rw [hcurold]
    simp [List.append_assoc]
  refine ⟨nodupKeys_setId _ _ _ h.nodupKeys, h.pendingNodup, ?_, ?_, ?_, ?_, ?_, ?_⟩
  · intro k hk
    obtain ⟨j', hj', hw'⟩ := h.pendingWaiting k hk
    exact ⟨j', by rw [hlookp k hk]; exact hj', hw'⟩
  · intro c hcc
    cases hcc
  · intro c hcc
    cases hcc
  · show List.Pairwise (· ≤ ·) ((s.finishedLog ++ [j.added_at]) ++
      (currentAAOf none (setId s.requests id j2) ++ pendingAAOf s.pending (setId s.requests id j2)))
    rw [show currentAAOf none (setId s.requests id j2) = [] from rfl, hpendnew, hscheq]
    exact h.schedSorted
  · intro a ha
    show a ≤ t
    have ha' : a ∈ (s.finishedLog ++ [j.added_at]) ++
        (currentAAOf none (setId s.requests id j2) ++ pendingAAOf s.pending (setId s.requests id j2)) := ha
    rw [show currentAAOf none (setId s.requests id j2) = [] from rfl, hpendnew, hscheq] at ha'
    exact le_trans (h.schedClock a ha') ht
  · show s.startedLog = (s.finishedLog ++ [j.added_at]) ++ currentAAOf none (setId s.requests id j2)
    rw [show currentAAOf none (setId s.requests id j2) = [] from rfl,
      h.startedEq, hcurold]
    simp

lemma invF_finish {s : QMState} (t : Nat) (outcome : Except String String)
    (h : InvF s) (ht : s.clock ≤ t) (hc : s.current.isSome) :
    InvF (worker_finish s t outcome) := by
  obtain ⟨id, hcur⟩ := Option.isSome_iff_exists.mp hc
  obtain ⟨j0, hj0, _⟩ := h.currentProc id hcur
  rcases hl : lookupId s.requests id with _ | j
  · rw [hj0] at hl; cases hl
  · rcases outcome with e0 | m
    · simp only [worker_finish, hcur, hl]
      exact invF_finish_aux t id j _ _ h ht hcur hl
    · simp only [worker_finish, hcur, hl]
      exact invF_finish_aux t id j _ _ h ht hcur hl

lemma invF_reap {s : QMState} (t : Nat) (h : InvF s) (ht : s.clock ≤ t) :
    InvF (cleanup_old_requests s t) := by
  have hlookp : ∀ k ∈ s.pending,
      lookupId (s.requests.filter (fun e => !reapable t e)) k = lookupId s.requests k := by
    intro k hk
    obtain ⟨j, hj, hw⟩ := h.pendingWaiting k hk
    rw [hj]
    refine lookupId_filter h.nodupKeys hj ?_
    simp [reapable, hw]
  have hlookc : ∀ c, s.current = some c →
      lookupId (s.requests.filter (fun e => !reapable t e)) c = lookupId s.requests c := by
    intro c hcur
    obtain ⟨j, hj, hp⟩ := h.currentProc c hcur
    rw [hj]
    refine lookupId_filter h.nodupKeys hj ?_
    simp [reapable, hp]
  have hcureq : currentAAOf s.current (s.requests.filter (fun e => !reapable t e))
      = currentAAOf s.current s.requests := currentAAOf_congr hlookc
  have hpendeq : pendingAAOf s.pending (s.requests.filter (fun e => !reapable t e))
      = pendingAA s := by
    rw [pendingAAOf_congr hlookp, ← pendingAA_eq]
  refine ⟨(keysOf_filter_sublist _ _).nodup h.nodupKeys, h.pendingNodup,
    ?_, ?_, ?_, ?_, ?_, ?_⟩
  · intro k hk
    have hk0 : k ∈ s.pending := hk
    obtain ⟨j, hj, hw⟩ := h.pendingWaiting k hk0
    refine ⟨j, ?_, hw⟩
    show lookupId (s.requests.filter (fun e => !reapable t e)) k = some j
    rw [hlookp k hk0]
    exact hj
  · intro c hcur
    have hc0 : s.current = some c := hcur
    obtain ⟨j, hj, hp⟩ := h.currentProc c hc0
    refine ⟨j, ?_, hp⟩
    show lookupId (s.requests.filter (fun e => !reapable t e)) c = some j
    rw [hlookc c hc0]
    exact hj
  · exact fun c hcur => h.currentNotPending c hcur
  · show List.Pairwise (· ≤ ·) (s.finishedLog ++
      (currentAAOf s.current (s.requests.filter (fun e => !reapable t e)) ++
        pendingAAOf s.pending (s.requests.filter (fun e => !reapable t e))))
    rw [hcureq, hpendeq]
    exact h.schedSorted
  · intro a ha
    show a ≤ t
    have ha' : a ∈ s.finishedLog ++
        (currentAAOf s.current (s.requests.filter (fun e => !reapable t e)) ++
          pendingAAOf s.pending (s.requests.filter (fun e => !reapable t e))) := ha
    rw [hcureq, hpendeq] at ha'
    exact le_trans (h.schedClock a ha') ht
  · show s.startedLog = s.finishedLog ++
      currentAAOf s.current (s.requests.filter (fun e => !reapable t e))
    rw [hcureq]
    exact h.startedEq

lemma invF_step {s s' : QMState} (h : InvF s) (hs : NStep s s') : InvF s' := by
  cases hs with
  | enqueue id u t ht hid => exact invF_enqueue id u t h ht hid
  | start t ht hc => exact invF_start t h ht hc
  | finish t outcome ht hc => exact invF_finish t outcome h ht hc
  | reap t ht => exact invF_reap t h ht
  | status_read id hid => rw [get_status_found hid]; exact h

lemma invF_reach {s : QMState} (h : NReach s) : InvF s := by
  induction h with
  | boot file t0 hk ht => exact invF_init file t0 hk ht
  | step _ hstep ih => exact invF_step ih hstep

/-- C2: FIFO processing order.  Under any interleaving of `add_to_queue`
calls with the worker's steps (and reaper/in-memory status reads), the
`added_at` stamps of jobs in the order they entered processing
(`startedLog`) — and in the order they reached their terminal states
(`finishedLog`) — are non-decreasing. -/
theorem fifo_processing_order (s : QMState) (h : NReach s) :
    List.Pairwise (· ≤ ·) s.startedLog ∧ List.Pairwise (· ≤ ·) s.finishedLog := by
  have hi := invF_reach h
  constructor
  · rw [hi.startedEq]
    refine List.Pairwise.sublist ?_ hi.schedSorted
    unfold schedList
    exact (List.sublist_append_left _ _).append_left _
  · refine List.Pairwise.sublist ?_ hi.schedSorted
    exact List.sublist_append_left _ _

/-- C2 witness: enqueue alice at time 1 and bob at time 2, run the worker;
the processing-entry order of `added_at` stamps is `[1, 2]`, non-decreasing. -/
theorem fifo_processing_order_w :
    List.Pairwise (· ≤ ·)
      (worker_start (worker_finish (worker_start
        (add_to_queue (add_to_queue (initState [] 0) "j1" "alice" 1) "j2" "bob" 2)
        3) 4 (Except.ok "m")) 5).startedLog ∧
    (worker_start (worker_finish (worker_start
        (add_to_queue (add_to_queue (initState [] 0) "j1" "alice" 1) "j2" "bob" 2)
        3) 4 (Except.ok "m")) 5).startedLog = [1, 2] := by
  have h0 : NReach (initState [] 0) := NReach.boot [] 0 (by simp [keysOf]) (by simp)
  have h1 : NReach (add_to_queue (initState [] 0) "j1" "alice" 1) :=
    NReach.step h0 (NStep.enqueue "j1" "alice" 1 (by decide) (by decide))
  have h2 : NReach (add_to_queue (add_to_queue (initState [] 0) "j1" "alice" 1)
      "j2" "bob" 2) :=
    NReach.step h1 (NStep.enqueue "j2" "bob" 2 (by decide) (by decide))
  have h3 : NReach (worker_start (add_to_queue (add_to_queue (initState [] 0)
      "j1" "alice" 1) "j2" "bob" 2) 3) :=
    NReach.step h2 (NStep.start 3 (by decide) (by decide))
  have h4 : NReach (worker_finish (worker_start (add_to_queue (add_to_queue
      (initState [] 0) "j1" "alice" 1) "j2" "bob" 2) 3) 4 (Except.ok "m")) :=
    NReach.step h3 (NStep.finish 4 (Except.ok "m") (by decide) (by decide))
  have h5 : NReach (worker_start (worker_finish (worker_start (add_to_queue
      (add_to_queue (initState [] 0) "j1" "alice" 1) "j2" "bob" 2) 3) 4
      (Except.ok "m")) 5) :=
    NReach.step h4 (NStep.start 5 (by decide) (by decide))
  exact ⟨(fifo_processing_order _ h5).1, by decide⟩

/-- The forward order of the job lifecycle
waiting → processing → completed/error. -/
def statusRank : Status → Nat
  | .waiting => 0
  | .processing => 1
  | .completed => 2
  | .error => 2

/-- C4 counterexample: status transitions DO regress under the reload that
`get_status` performs on an unknown id.  From a reachable state whose job
"j1" is processing (and persisted as processing), a `get_status` call on the
unknown id "zz" — a legal operation of the machine — reloads the snapshot
and demotes "j1" from processing back to waiting: a backward transition. -/
theorem get_status_reload_regresses :
    QReach (worker_start (add_to_queue (initState [] 0) "j1" "alice" 1) 2) ∧
    QStep (worker_start (add_to_queue (initState [] 0) "j1" "alice" 1) 2)
      (get_status (worker_start (add_to_queue (initState [] 0) "j1" "alice" 1) 2) "zz") ∧
    (lookupId (worker_start (add_to_queue (initState [] 0) "j1" "alice" 1) 2).requests
        "j1").map Job.status = some Status.processing ∧
    (lookupId (get_status (worker_start (add_to_queue (initState [] 0) "j1" "alice" 1) 2)
        "zz").requests "j1").map Job.status = some Status.waiting ∧
    statusRank Status.waiting < statusRank Status.processing := by
  have h0 : QReach (initState [] 0) := QReach.boot [] 0 (by simp [keysOf]) (by simp)
  have h1 : QReach (add_to_queue (initState [] 0) "j1" "alice" 1) :=
    QReach.step h0 (QStep.enqueue "j1" "alice" 1 (by decide) (by decide))
  have h2 : QReach (worker_start (add_to_queue (initState [] 0) "j1" "alice" 1) 2) :=
    QReach.step h1 (QStep.start 2 (by decide) (by decide))
  exact ⟨h2, QStep.status_read "zz", by decide, by decide, by decide⟩

/-- C4 (amended): excluding the `_load_state` reload path (construction and
`get_status` on an id not found in memory), job status transitions are
monotone along waiting → processing → completed/error: every
reload-free operation moves every surviving job's status only forward, and
`get_status` on an id present in memory leaves the state untouched.  (The
reload path can demote a persisted-processing job back to waiting, exactly
as the startup recovery of C3 does.) -/
theorem status_monotone_no_reload (s : QMState) (hr : NReach s) :
    (∀ s', NStep s s' → ∀ k j j', lookupId s.requests k = some j →
      lookupId s'.requests k = some j' →
      statusRank j.status ≤ statusRank j'.status) ∧
    (∀ id, (lookupId s.requests id).isSome → get_status s id = s) := by
  have hi := invF_reach hr
  refine ⟨?_, fun id hs => get_status_found hs⟩
  intro s' hstep k j j' hj hj'
  cases hstep with
  | enqueue id u t ht hid =>
    have hne : k ≠ id := fun hc => by rw [hc, hid] at hj; cases hj
    have heq : lookupId (add_to_queue s id u t).requests k = lookupId s.requests k := by
      show lookupId (setId s.requests id (newJob u t)) k = _
      exact lookupId_setId_ne _ _ _ _ hne
    rw [heq, hj] at hj'
    exact le_of_eq (by rw [Option.some.inj hj'])
  | start t ht hc =>
    rcases hp : s.pending with _ | ⟨id, rest⟩
    · rw [show worker_start s t = s from by simp only [worker_start, hp]] at hj'
      rw [hj] at hj'
      exact le_of_eq (by rw [Option.some.inj hj'])
    · obtain ⟨jw, hjw, hww⟩ := hi.pendingWaiting id
        (by rw [hp]; exact List.mem_cons_self _ _)
      rcases hl : lookupId s.requests id with _ | j0
      · rw [hjw] at hl; cases hl
      · have hw0 : j0.status = Status.waiting := by
          rw [hl] at hjw
          rw [Option.some.inj hjw]
          exact hww
        simp only [worker_start, hp, hl] at hj'
        by_cases hk : k = id
        · rw [hk] at hj hj'
          rw [lookupId_setId_self] at hj'
          have hjj0 : j = j0 := by rw [hl] at hj; exact (Option.some.inj hj).symm
          have hj'p : j' = { j0 with status := .processing, started_at := some t } :=
            (Option.some.inj hj').symm
          rw [hjj0, hj'p]
          show statusRank j0.status ≤ statusRank Status.processing
          rw [hw0]
          decide
        · rw [lookupId_setId_ne _ _ _ _ hk, hj] at hj'
          exact le_of_eq (by rw [Option.some.inj hj'])
  | finish t outcome ht hc =>
    obtain ⟨id, hcur⟩ := Option.isSome_iff_exists.mp hc
    obtain ⟨jp, hjp, hpp⟩ := hi.currentProc id hcur
    rcases hl : lookupId s.requests id with _ | j0
    · rw [hjp] at hl; cases hl
    · have hp0 : j0.status = Status.processing := by
        rw [hl] at hjp
        rw [Option.some.inj hjp]
        exact hpp
      rcases outcome with e0 | m
      · simp only [worker_finish, hcur, hl] at hj'
        by_cases hk : k = id
        · rw [hk] at hj hj'
          rw [lookupId_setId_self] at hj'
          have hjj0 : j = j0 := by rw [hl] at hj; exact (Option.some.inj hj).symm
          have hj'e : j'
              = { j0 with status := Status.error, error := some e0, completed_at := some t } :=
            (Option.some.inj hj').symm
          rw [hjj0, hj'e]
          show statusRank j0.status ≤ statusRank Status.error
          rw [hp0]
          decide
        · rw [lookupId_setId_ne _ _ _ _ hk, hj] at hj'
          exact le_of_eq (by rw [Option.some.inj hj'])
      · simp only [worker_finish, hcur, hl] at hj'
        by_cases hk : k = id
        · rw [hk] at hj hj'
          rw [lookupId_setId_self] at hj'
          have hjj0 : j = j0 := by rw [hl] at hj; exact (Option.some.inj hj).symm
          have hj'e : j'
              = { j0 with status := .completed, result := some m, completed_at := some t } :=
            (Option.some.inj hj').symm
          rw [hjj0, hj'e]
          show statusRank j0.status ≤ statusRank Status.completed
          rw [hp0]
          decide
        · rw [lookupId_setId_ne _ _ _ _ hk, hj] at hj'
          exact le_of_eq (by rw [Option.some.inj hj'])
  | reap t ht =>
    have hj'0 : lookupId (s.requests.filter (fun e => !reapable t e)) k = some j' := hj'
    have hfv := lookupId_filter_some hi.nodupKeys hj'0
    rw [hj] at hfv
    exact le_of_eq (by rw [Option.some.inj hfv])
  | status_read id hid =>
    rw [get_status_found hid] at hj'
    rw [hj] at hj'
    exact le_of_eq (by rw [Option.some.inj hj'])

/-- C4 witness: along the concrete reload-free trace (enqueue alice, worker
takes the job), job "j1" moves waiting → processing (rank 0 ≤ 1), and a
`get_status` read on the in-memory id "j1" leaves the state unchanged. -/
theorem status_monotone_no_reload_w :
    statusRank (newJob "alice" 1).status
      ≤ statusRank (⟨"alice", .processing, none, none, 1, some 2, none⟩ : Job).status ∧
    get_status (add_to_queue (initState [] 0) "j1" "alice" 1) "j1"
      = add_to_queue (initState [] 0) "j1" "alice" 1 := by
  have h0 : NReach (initState [] 0) := NReach.boot [] 0 (by simp [keysOf]) (by simp)
  have h1 : NReach (add_to_queue (initState [] 0) "j1" "alice" 1) :=
    NReach.step h0 (NStep.enqueue "j1" "alice" 1 (by decide) (by decide))
  have h := status_monotone_no_reload (add_to_queue (initState [] 0) "j1" "alice" 1) h1
  constructor
  · exact h.1 _ (NStep.start 2 (by decide) (by decide)) "j1" (newJob "alice" 1)
      ⟨"alice", .processing, none, none, 1, some 2, none⟩ (by decide) (by decide)
  · exact h.2 "j1" (by decide)

end Locket
